import Mathlib

/-!
Verification of the partial-hydration repair engine of `mst-persistent-store`
(`src/hydration/hydrate-store.ts` and `src/hydration/utils.ts`), against the
repository's specification.

The embedding models snapshots (documents) as JSON-like values, schema nodes as
a tagged variant (the spec's §3 data model, standing in for the mobx-state-tree
type system, which is an external dependency of the repository), and the repair
algorithm of `hydrateStore` as a pure function over those values.  External
capabilities consumed from mobx-state-tree and `@hyperjump/json-pointer`
(validate, applySnapshot, tryResolve/getType, type.create, get/assign/remove)
are modelled from the specification's §4.1/§6 contracts; everything else is a
direct transcription of the TypeScript source.
-/

namespace MstPersistentStore

/-- A JSON-like document value (the snapshot/wire representation of §3).
`undef` is JavaScript `undefined`: it stands both for an absent value and for
the hole that json-pointer `remove` leaves in an array. -/
inductive JsonValue where
  | str : String → JsonValue
  | num : Int → JsonValue
  | bool : Bool → JsonValue
  | null : JsonValue
  | undef : JsonValue
  | arr : List JsonValue → JsonValue
  | obj : List (String × JsonValue) → JsonValue
deriving Repr

/-- Primitive schema kinds (§3: string/number/boolean/null-literal/undefined-literal;
the numeric refinements integer/float/finite/date all reject the same
non-numeric values, so a single numeric kind suffices for the claims). -/
inductive PrimKind where
  | pstring
  | pnumber
  | pboolean
  | pnull
  | pundefined
deriving Repr, DecidableEq

/-- Modelled from the spec: schema nodes (§3) — a tagged variant over
primitives, `Optional(inner, default)`, `Nullable(inner)`, `List(element)`,
`Dictionary(value)` and `Record(fields)`.  This stands in for the
mobx-state-tree type objects (`IAnyType`) used by the source, which live in an
external package.  `types.maybe x` is `optional x undef`, `types.maybeNull x`
is `optional (nullable x) null`. -/
inductive SchemaNode where
  | prim : PrimKind → SchemaNode
  | optional : SchemaNode → JsonValue → SchemaNode
  | nullable : SchemaNode → SchemaNode
  | list : SchemaNode → SchemaNode
  | dict : SchemaNode → SchemaNode
  | record : List (String × SchemaNode) → SchemaNode
deriving Repr

/-- One entry of a mobx-state-tree validation context: the path segment that
was entered and the declared type at that position. -/
structure ContextEntry where
  path : String
  type : SchemaNode
deriving Repr

/-- A single mobx-state-tree validation error.  The source
(`transformErrorsToObjects`) only consumes the `context` chain, so the
`value`/`message` fields of `IValidationError` are omitted. -/
structure ValidationError where
  context : List ContextEntry
deriving Repr

/-- mobx-state-tree's `isOptionalType`. -/
def SchemaNode.isOptionalType : SchemaNode → Bool
  | .optional _ _ => true
  | _ => false

/-- mobx-state-tree's `isMapType`. -/
def SchemaNode.isMapType : SchemaNode → Bool
  | .dict _ => true
  | _ => false

/-- mobx-state-tree's `isArrayType`. -/
def SchemaNode.isArrayType : SchemaNode → Bool
  | .list _ => true
  | _ => false

/-- Does a primitive value conform to a primitive schema kind? -/
def primCheck : PrimKind → JsonValue → Bool
  | .pstring, .str _ => true
  | .pnumber, .num _ => true
  | .pboolean, .bool _ => true
  | .pnull, .null => true
  | .pundefined, .undef => true
  | _, _ => false

/-- Is the value JavaScript `undefined`? -/
def JsonValue.isUndef : JsonValue → Bool
  | .undef => true
  | _ => false

/-- Is the value JSON `null`? -/
def JsonValue.isNull : JsonValue → Bool
  | .null => true
  | _ => false

/-- JavaScript truthiness of a document value (`if (node) ...`). -/
def JsonValue.truthy : JsonValue → Bool
  | .null => false
  | .undef => false
  | .str s => !(s == (""))
  | .num n => n != 0
  | .bool b => b
  | .arr _ => true
  | .obj _ => true

/-- JavaScript property read `kvs[name]`: the first binding of `name`, or
`undefined` when the key is absent. -/
def lookupField (kvs : List (String × JsonValue)) (name : String) : JsonValue :=
  ((kvs.find? (fun p => p.1 == name)).map Prod.snd).getD .undef

mutual
/-- Structural size of a schema node, used as validator fuel (the derived
`SizeOf` of a nested inductive has no executable code).  The `Optional`
default value is never recursed into by the validator, so it does not
count. -/
def schemaSize : SchemaNode → Nat
  | .prim _ => 1
  | .optional inner _ => schemaSize inner + 1
  | .nullable inner => schemaSize inner + 1
  | .list el => schemaSize el + 1
  | .dict vt => schemaSize vt + 1
  | .record fields => schemaFieldsSize fields + 1

/-- Structural size of a record's field list. -/
def schemaFieldsSize : List (String × SchemaNode) → Nat
  | [] => 1
  | (_, t) :: rest => schemaSize t + schemaFieldsSize rest + 1
end

mutual
/-- Structural size of a document value, used as validator fuel. -/
def valueSize : JsonValue → Nat
  | .arr items => valueItemsSize items + 1
  | .obj kvs => valueFieldsSize kvs + 1
  | _ => 1

/-- Structural size of an array's element list. -/
def valueItemsSize : List JsonValue → Nat
  | [] => 1
  | v :: rest => valueSize v + valueItemsSize rest + 1

/-- Structural size of an object's field list. -/
def valueFieldsSize : List (String × JsonValue) → Nat
  | [] => 1
  | (_, v) :: rest => valueSize v + valueFieldsSize rest + 1
end

mutual
/-- Fuel-driven core of the validator.  The recursion of mobx-state-tree's
`type.validate` descends simultaneously through the schema and the candidate
value, which is not a structural recursion Lean can compile to a reducible
definition; instead every recursive call consumes one unit of fuel, and the
measure `schemaSize schema + valueSize value` strictly decreases along every call, so
any fuel at least that measure is sufficient (`validateGo_stable` below) and
the zero-fuel clause is unreachable from `validate`.  The defining equations
of the source recursion are recovered as the `validate_…` theorems. -/
def validateGo : Nat → SchemaNode → JsonValue → List ContextEntry → List ValidationError
  | 0, _, _, _ => []
  | d + 1, schema, v, ctx =>
      match schema with
      | .prim k => if primCheck k v then [] else [⟨ctx⟩]
      | .optional inner _ => if v.isUndef then [] else validateGo d inner v ctx
      | .nullable inner =>
          if v.isNull then []
          else if (validateGo d inner v ctx).isEmpty then [] else [⟨ctx⟩]
      | .list el =>
          match v with
          | .arr items => validateItemsGo d el 0 items ctx
          | _ => [⟨ctx⟩]
      | .dict vt =>
          match v with
          | .obj kvs => validateEntriesGo d vt kvs ctx
          | _ => [⟨ctx⟩]
      | .record fields =>
          match v with
          | .obj kvs => validateFieldsGo d fields kvs ctx
          | _ => [⟨ctx⟩]

/-- Fuel-driven element loop of `List` validation (§4.1): each element is
validated against the element schema with its index appended to the path. -/
def validateItemsGo : Nat → SchemaNode → Nat → List JsonValue → List ContextEntry → List ValidationError
  | 0, _, _, _, _ => []
  | _ + 1, _, _, [], _ => []
  | d + 1, el, i, item :: rest, ctx =>
      validateGo d el item (ctx ++ [⟨toString i, el⟩]) ++ validateItemsGo d el (i + 1) rest ctx

/-- Fuel-driven entry loop of `Dictionary` validation (§4.1): each entry is
validated against the value schema with its key appended to the path. -/
def validateEntriesGo : Nat → SchemaNode → List (String × JsonValue) → List ContextEntry → List ValidationError
  | 0, _, _, _ => []
  | _ + 1, _, [], _ => []
  | d + 1, vt, (k, v) :: rest, ctx =>
      validateGo d vt v (ctx ++ [⟨k, vt⟩]) ++ validateEntriesGo d vt rest ctx

/-- Fuel-driven field loop of `Record` validation (§4.1): every declared field
is validated (a missing field reads as `undefined`); undeclared candidate
fields are ignored. -/
def validateFieldsGo : Nat → List (String × SchemaNode) → List (String × JsonValue) → List ContextEntry → List ValidationError
  | 0, _, _, _ => []
  | _ + 1, [], _, _ => []
  | d + 1, (name, t) :: rest, kvs, ctx =>
      validateGo d t (lookupField kvs name) (ctx ++ [⟨name, t⟩]) ++ validateFieldsGo d rest kvs ctx
end

/-- Modelled from the spec: the Validator contract of §4.1 —
`validate(schema, value, context)` recurses into every branch without
short-circuiting, appends one context entry per path segment, reports
`Record`/`List`/`Dictionary` shape mismatches against the current context,
ignores undeclared fields, accepts absence for `Optional` and `null` for
`Nullable`, and reports a wrapper's failure against the *outer* wrapper
(the context entry appended by the enclosing record already carries the
wrapper type, and the wrapper delegates to its inner type under the same
context).  This stands in for mobx-state-tree's `type.validate`, which the
source invokes as `model.validate(snapshot, [{ path: '', type: model }])`.
The recursion is realised by `validateGo` with provably sufficient fuel. -/
def validate (s : SchemaNode) (v : JsonValue) (ctx : List ContextEntry) : List ValidationError :=
  validateGo (schemaSize s + valueSize v) s v ctx


/-- The element loop of `List` validation, written as the source's recursion
over `validate` itself; `validate_list_arr` proves the fuel implementation
satisfies this defining equation. -/
def validateItems (el : SchemaNode) (i : Nat) (items : List JsonValue)
    (ctx : List ContextEntry) : List ValidationError :=
  match items with
  | [] => []
  | item :: rest =>
      validate el item (ctx ++ [⟨toString i, el⟩]) ++ validateItems el (i + 1) rest ctx

/-- The entry loop of `Dictionary` validation, written as the source's
recursion over `validate` itself. -/
def validateEntries (vt : SchemaNode) (kvs : List (String × JsonValue))
    (ctx : List ContextEntry) : List ValidationError :=
  match kvs with
  | [] => []
  | (k, v) :: rest =>
      validate vt v (ctx ++ [⟨k, vt⟩]) ++ validateEntries vt rest ctx

/-- The field loop of `Record` validation, written as the source's recursion
over `validate` itself. -/
def validateFields (fields : List (String × SchemaNode)) (kvs : List (String × JsonValue))
    (ctx : List ContextEntry) : List ValidationError :=
  match fields with
  | [] => []
  | (name, t) :: rest =>
      validate t (lookupField kvs name) (ctx ++ [⟨name, t⟩]) ++ validateFields rest kvs ctx

/-- JavaScript `String.prototype.startsWith(pre)` (also the comparison inside
utils.ts `checkSetForPrefix`), written over the character list so that it
evaluates by kernel reduction. -/
def strStartsWith (s pre : String) : Bool :=
  List.isPrefixOf pre.data s.data

/-- Accumulator for `splitOnSlash`. -/
def splitOnSlashAux : List Char → List Char → List String
  | [], acc => [String.mk acc.reverse]
  | c :: rest, acc =>
      if c = ('/') then String.mk acc.reverse :: splitOnSlashAux rest []
      else splitOnSlashAux rest (c :: acc)

/-- JavaScript `path.split('/')`: split on every slash, preserving empty
segments. -/
def splitOnSlash (s : String) : List String :=
  splitOnSlashAux s.data []

/-- Accumulator for `parseIndex`. -/
def parseIndexAux : List Char → Nat → Option Nat
  | [], n => some n
  | c :: rest, n =>
      if c.isDigit then parseIndexAux rest (n * 10 + (c.toNat - 48)) else none

/-- Digit-fold part of `parseIndex` (value of an all-digit string). -/
def parseIndexRaw (s : String) : Option Nat :=
  match s.data with
  | [] => none
  | _ => parseIndexAux s.data 0

/-- Read a pointer segment as an array index.  ECMAScript array semantics: a
property key addresses an element exactly when it is the *canonical* decimal
string of its numeric value (so `"1"` is an index but `"01"` or `"+1"` are
plain properties, invisible to the JSON representation).  Validating by
re-rendering makes the canonicity explicit and the function injective on
indices. -/
def parseIndex (s : String) : Option Nat :=
  match parseIndexRaw s with
  | some n => if toString n = s then some n else none
  | none => none

/-- A parsed violation (`PathObject` of hydrate-store.ts): the joined path, the
rejecting schema node (last context entry's type), the raw segment list
(starting with the root's empty segment) and the nestedness flag. -/
structure PathObject where
  path : String
  pathSegments : List String
  type : SchemaNode
  isNested : Bool
deriving Repr

/-- Transcribed from hydrate-store.ts, `transformErrorsToObjects` (lines
41-55): for each validation error take the last context entry's type, the
list of context paths as segments, their `'/'`-join as the path, and mark the
violation nested when there are more than two segments.  Contexts produced by
`validate` are never empty (they extend the caller's root context), so the
`getD` fallback type is unreachable. -/
def transformErrorsToObjects (errors : List ValidationError) : List PathObject :=
  errors.map (fun error =>
    { path := String.intercalate ("/") (error.context.map (fun e => e.path))
      pathSegments := error.context.map (fun e => e.path)
      type := ((error.context.getLast?).map (fun e => e.type)).getD (.record [])
      isNested := decide (2 < error.context.length) })

/-- A node of the violation trie (`TreeNode` of hydrate-store.ts): an optional
violation stored at this exact path plus insertion-ordered children (the
semantics of a JavaScript `Map`). -/
inductive TreeNode where
  | mk : Option PathObject → List (String × TreeNode) → TreeNode
deriving Repr

/-- The violation stored at this trie node, if any. -/
def TreeNode.value : TreeNode → Option PathObject
  | .mk v _ => v

/-- The insertion-ordered children of a trie node. -/
def TreeNode.nodes : TreeNode → List (String × TreeNode)
  | .mk _ ns => ns

/-- `Map.get`-or-fresh-node: the child under `s`, or an empty node when the key
is absent (hydrate-store.ts lines 82-87). -/
def childOrEmpty (ns : List (String × TreeNode)) (s : String) : TreeNode :=
  ((ns.find? (fun p => p.1 == s)).map Prod.snd).getD (.mk none [])

/-- `Map.set` semantics: replace the binding of `s` in place, or append it when
the key is new. -/
def setChild : List (String × TreeNode) → String → TreeNode → List (String × TreeNode)
  | [], s, c => [(s, c)]
  | (k, c0) :: tail, s, c =>
      if k == s then (k, c) :: tail else (k, c0) :: setChild tail s c

/-- Insert one violation into the trie by walking/creating a node per segment
and storing the violation at the terminal node (`currentNode.value = pathObj`:
a later violation at the same exact path *overwrites* an earlier one). -/
def insertPath : List String → TreeNode → PathObject → TreeNode
  | [], .mk _ ns, p => .mk (some p) ns
  | s :: rest, .mk v ns, p =>
      .mk v (setChild ns s (insertPath rest (childOrEmpty ns s) p))

/-- Transcribed from hydrate-store.ts, `buildTree` (lines 73-95): fold the
violations into a trie; each violation walks its segments from index 1
(skipping the leading root segment). -/
def buildTree (paths : List PathObject) : TreeNode :=
  paths.foldl (fun tree pathObj => insertPath pathObj.pathSegments.tail tree pathObj) (.mk none [])

mutual
/-- Transcribed from hydrate-store.ts, `reverseDepthFirstTraversal` (lines
97-115), made pure: instead of invoking a callback, return the visited
violations in visit order, each paired with its trie position (the source
passes the trie node itself and later recovers the position by object
identity; positions are unique because `buildTree` allocates fresh nodes, so
the `visited` cycle guard of the source can never fire on a trie).  Children
are visited before the node's own value, and siblings in reverse insertion
order (`Array.from(tree.nodes.keys()).reverse()`). -/
def rdftNodes : TreeNode → List String → List (List String × PathObject)
  | .mk v ns, pos =>
      rdftChildren ns pos ++ ((v.map (fun p => (pos, p))).toList)

/-- Visit a child list in reverse insertion order (later siblings first). -/
def rdftChildren : List (String × TreeNode) → List String → List (List String × PathObject)
  | [], _ => []
  | (k, c) :: tail, pos => rdftChildren tail pos ++ rdftNodes c (pos ++ [k])
end

/-- The traversal entry point: visit the whole trie from the root. -/
def reverseDepthFirstTraversal (tree : TreeNode) : List (List String × PathObject) :=
  rdftNodes tree []

/-- Look up the trie node at a position. -/
def nodeAt : TreeNode → List String → Option TreeNode
  | t, [] => some t
  | .mk _ ns, s :: rest =>
      match (ns.find? (fun p => p.1 == s)).map Prod.snd with
      | some c => nodeAt c rest
      | none => none

/-- Rebuild the string path of a trie position (the source's violation paths
are the `'/'`-join of the context segments, whose first segment is empty). -/
def segmentsToPath (segs : List String) : String :=
  String.intercalate ("/") (("") :: segs)

/-- The result of nearest-parent resolution (`NearestParent` of
hydrate-store.ts): the ancestor's path, the ancestor's immediate child along
the violation's path, and the ancestor's type. -/
structure NearestParent where
  nearestParentPath : String
  childPath : String
  type : SchemaNode
deriving Repr

/-- The ancestor walk of `findNearestParentWithValue` (hydrate-store.ts lines
140-172): check the trie ancestors of the violation from the immediate parent
(depth `pos.length - 1`) down to the root (depth 0); the first one holding a
violation is returned, with `childPath` trimmed to that ancestor's immediate
child on the way (the source trims `childPath` once per level walked up).
`nodeAt` cannot actually miss, since the position comes from the traversal. -/
def fnpLoop (tree : TreeNode) (pos : List String) : Nat → Option NearestParent
  | 0 =>
      match tree.value with
      | some pv => some ⟨pv.path, segmentsToPath (pos.take 1), pv.type⟩
      | none => none
  | d + 1 =>
      match nodeAt tree (pos.take (d + 1)) with
      | some t =>
          match t.value with
          | some pv => some ⟨pv.path, segmentsToPath (pos.take (d + 2)), pv.type⟩
          | none => fnpLoop tree pos d
      | none => fnpLoop tree pos d

/-- Transcribed from hydrate-store.ts, `findNearestParentWithValue`: `null`
for the root node itself, else the nearest trie ancestor holding a
violation. -/
def findNearestParentWithValue (tree : TreeNode) (pos : List String) : Option NearestParent :=
  match pos with
  | [] => none
  | _ :: _ => fnpLoop tree pos (pos.length - 1)

/-- Strip `Optional`/`Nullable` wrappers: a mobx-state-tree node instantiated
from a wrapped type reports the unwrapped type through `getType`. -/
def SchemaNode.unwrap : SchemaNode → SchemaNode
  | .optional inner _ => inner.unwrap
  | .nullable inner => inner.unwrap
  | s => s

/-- Modelled from the spec: `resolveSchemaAt(liveInstance, path) -> schemaNode
| absent` (§6), standing in for `tryResolve(store, path)` + `getType(node)` of
hydrate-store.ts lines 196-200.  Resolution walks the live instance's current
document alongside the schema; a JS-falsy resolved value counts as absent
(the source tests `if (node)`), and the returned runtime type never carries a
wrapper.  In hydrateStore the resolved paths are strict ancestors of violation
paths, hence container-typed, so returning the schema for a truthy primitive
(where `getType` would demand a tree node) is unreachable. -/
def resolveSchemaAt : SchemaNode → JsonValue → List String → Option SchemaNode
  | s, v, [] => if v.truthy then some s.unwrap else none
  | s, v, seg :: rest =>
      match s.unwrap, v with
      | .record fields, .obj kvs =>
          match (fields.find? (fun f => f.1 == seg)).map Prod.snd with
          | some ft => resolveSchemaAt ft (lookupField kvs seg) rest
          | none => none
      | .dict vt, .obj kvs =>
          match (kvs.find? (fun kv => kv.1 == seg)).map Prod.snd with
          | some cv => resolveSchemaAt vt cv rest
          | none => none
      | .list el, .arr items =>
          match parseIndex seg with
          | some i =>
              match items.get? i with
              | some cv => resolveSchemaAt el cv rest
              | none => none
          | none => none
      | _, _ => none

/-- The upward `tryResolve` loop of `tryResolveNearestExistingParent`
(hydrate-store.ts lines 187-204): try the live store at each ancestor path
from depth `pos.length - 1` down to depth 1, returning the first existing
ancestor with its immediate child along the violation path; reaching the root
path returns `null`. -/
def tryResolveLoop (model : SchemaNode) (storeSnapshot : JsonValue) (pos : List String) :
    Nat → Option NearestParent
  | 0 => none
  | d + 1 =>
      match resolveSchemaAt model storeSnapshot (pos.take (d + 1)) with
      | some t =>
          some ⟨segmentsToPath (pos.take (d + 1)), segmentsToPath (pos.take (d + 2)), t⟩
      | none => tryResolveLoop model storeSnapshot pos d

/-- Transcribed from hydrate-store.ts, `tryResolveNearestExistingParent` (lines
174-207): prefer the nearest trie ancestor that has its own violation; fall
back to resolving ancestors against the live store instance. -/
def tryResolveNearestExistingParent (model : SchemaNode) (storeSnapshot : JsonValue)
    (tree : TreeNode) (pos : List String) : Option NearestParent :=
  match findNearestParentWithValue tree pos with
  | some nearestParent => some nearestParent
  | none => tryResolveLoop model storeSnapshot pos (pos.length - 1)

/-- Modelled from the spec: `synthesizeDefault(schema) -> value` (§6), standing
in for `createDefaultValue` of hydrate-store.ts lines 209-215 (`type.create()`
plus `getSnapshot`).  Both call sites in hydrateStore are guarded by
`isOptionalType`, so only the `optional` case (whose node carries its default
snapshot) is ever reached; the remaining cases are unreachable placeholders. -/
def createDefaultValue : SchemaNode → JsonValue
  | .optional _ d => d
  | .nullable _ => .null
  | .prim .pstring => .str ("")
  | .prim .pnumber => .num 0
  | .prim .pboolean => .bool false
  | .prim .pnull => .null
  | .prim .pundefined => .undef
  | .list _ => .arr []
  | .dict _ => .obj []
  | .record _ => .obj []

/-- Split a JSON-pointer string into segments: the pointer `""` addresses the
root, `"/a/b"` the segments `["a", "b"]`. -/
def pointerSegments (p : String) : List String :=
  (splitOnSlash p).tail

/-- JavaScript property write `kvs[s] = v`: replace the binding in place, or
append it when the key is new. -/
def setFieldJson : List (String × JsonValue) → String → JsonValue → List (String × JsonValue)
  | [], s, v => [(s, v)]
  | (k, v0) :: tail, s, v =>
      if k == s then (k, v) :: tail else (k, v0) :: setFieldJson tail s v

/-- Modelled from the spec: the structural lookup `resolve(path, document) ->
value | absent` of §4.4, standing in for `get` of `@hyperjump/json-pointer`.
Callers read an absent result as `undefined`.  (The JS library would throw
when traversing *through* an undefined value; that can only arise after an
ancestor deletion and is modelled as absent.) -/
def jsonGet : List String → JsonValue → Option JsonValue
  | [], v => some v
  | seg :: rest, .obj kvs =>
      match (kvs.find? (fun kv => kv.1 == seg)).map Prod.snd with
      | some c => jsonGet rest c
      | none => none
  | seg :: rest, .arr items =>
      match parseIndex seg with
      | some i =>
          match items.get? i with
          | some c => jsonGet rest c
          | none => none
      | none => none
  | _, _ => none

/-- Modelled from the spec: json-pointer `assign(path, subject, value)` — walk
to the path's parent and write the final key (`parent[key] = value`).  The
root pointer cannot re-seat the subject and paths whose parent is missing
cannot be written (both unreachable in the pipeline: violation paths descend
through structure that exists in the working copy); these are no-ops. -/
def jsonAssign : List String → JsonValue → JsonValue → JsonValue
  | [], doc, _ => doc
  | [seg], .obj kvs, value => .obj (setFieldJson kvs seg value)
  | [seg], .arr items, value =>
      match parseIndex seg with
      | some i => .arr (items.set i value)
      | none => .arr items
  | seg :: rest, .obj kvs, value =>
      match (kvs.find? (fun kv => kv.1 == seg)).map Prod.snd with
      | some c => .obj (setFieldJson kvs seg (jsonAssign rest c value))
      | none => .obj kvs
  | seg :: rest, .arr items, value =>
      match parseIndex seg with
      | some i =>
          match items.get? i with
          | some c => .arr (items.set i (jsonAssign rest c value))
          | none => .arr items
      | none => .arr items
  | _, doc, _ => doc

/-- Modelled from the spec: json-pointer `remove(path, subject)` — walk to the
path's parent and `delete parent[key]`.  Deleting an object key removes the
binding; deleting an array index leaves a hole (`undefined`), which is exactly
what `removeEmptyItemsRecursively` later compacts (§4.3 step 6). -/
def jsonRemove : List String → JsonValue → JsonValue
  | [], doc => doc
  | [seg], .obj kvs => .obj (kvs.filter (fun kv => !(kv.1 == seg)))
  | [seg], .arr items =>
      match parseIndex seg with
      | some i => .arr (items.set i .undef)
      | none => .arr items
  | seg :: rest, .obj kvs =>
      match (kvs.find? (fun kv => kv.1 == seg)).map Prod.snd with
      | some c => .obj (setFieldJson kvs seg (jsonRemove rest c))
      | none => .obj kvs
  | seg :: rest, .arr items =>
      match parseIndex seg with
      | some i =>
          match items.get? i with
          | some c => .arr (items.set i (jsonRemove rest c))
          | none => .arr items
      | none => .arr items
  | _, doc => doc

/-- Drop JavaScript `undefined` slots from a mapped array
(`.filter((item) => item !== undefined)`). -/
def filterUndef (items : List JsonValue) : List JsonValue :=
  items.filter (fun item => !item.isUndef)

mutual
/-- Transcribed from hydrate-store.ts, `removeEmptyItemsRecursively` (lines
57-71): arrays are recursively processed and compacted by dropping `undefined`
slots; plain objects are recursively processed key by key (no compaction);
every other value is returned unchanged. -/
def removeEmptyItemsRecursively : JsonValue → JsonValue
  | .arr items => .arr (filterUndef (remItems items))
  | .obj kvs => .obj (remFields kvs)
  | v => v

/-- `obj.map((item) => removeEmptyItemsRecursively(item))`. -/
def remItems : List JsonValue → List JsonValue
  | [] => []
  | item :: rest => removeEmptyItemsRecursively item :: remItems rest

/-- `for (const key in obj) newObj[key] = removeEmptyItemsRecursively(obj[key])`. -/
def remFields : List (String × JsonValue) → List (String × JsonValue)
  | [] => []
  | (k, v) :: rest => (k, removeEmptyItemsRecursively v) :: remFields rest
end

mutual
/-- The deep copy `JSON.parse(JSON.stringify(snapshot))` of hydrate-store.ts
line 234: `JSON.stringify` drops object keys bound to `undefined` and writes
`undefined` array slots as `null`. -/
def jsonRoundTrip : JsonValue → JsonValue
  | .arr items => .arr (roundItems items)
  | .obj kvs => .obj (roundFields kvs)
  | v => v

/-- Array elements under `JSON.stringify`∘`JSON.parse`: `undefined` becomes
`null`. -/
def roundItems : List JsonValue → List JsonValue
  | [] => []
  | item :: rest =>
      (if item.isUndef then .null else jsonRoundTrip item) :: roundItems rest

/-- Object fields under `JSON.stringify`∘`JSON.parse`: keys bound to
`undefined` are dropped. -/
def roundFields : List (String × JsonValue) → List (String × JsonValue)
  | [] => []
  | (k, v) :: rest =>
      if v.isUndef then roundFields rest else (k, jsonRoundTrip v) :: roundFields rest
end

/-- The two mutable locals threaded through the traversal callback of
hydrateStore: the working copy `newSnapshot` (line 234) and the string set
`processedPaths` (line 236, a JavaScript `Set`, modelled as an
insertion-ordered duplicate-free list). -/
structure RepairState where
  newSnapshot : JsonValue
  processedPaths : List String
deriving Repr

/-- `Set.add`: append the path unless it is already present. -/
def addProcessed (paths : List String) (p : String) : List String :=
  if paths.contains p then paths else paths ++ [p]

/-- Transcribed from hydrate-store.ts, the traversal callback of `hydrateStore`
(lines 240-319), one violation at a time.

* Lines 243-257 (the guard also exists as `checkSetForPrefix` in utils.ts):
  when some already-processed path *starts with* the violation's path (the
  exact path or a descendant was already processed), re-validate the current
  value at the path in the working copy against the rejecting type; if it now
  validates, only mark the path processed.
* Lines 259-304, nested violations: an `Optional` rejecting type is replaced
  by its default; otherwise the nearest resolvable ancestor decides — a
  map/array ancestor deletes the offending child, a model ancestor is replaced
  wholesale (by its `Optional` default, or by the value read from the
  pre-repair store snapshot) and both ancestor paths are marked processed;
  with no resolvable ancestor the value is deleted outright.
* Lines 305-317, root-level violations: an `Optional` type is replaced by its
  default, anything else by the value read from the pre-repair store snapshot.
* Line 318: the violation's own path is always marked processed. -/
def processViolation (model : SchemaNode) (storeSnapshot : JsonValue) (tree : TreeNode)
    (st : RepairState) (entry : List String × PathObject) : RepairState :=
  let pos := entry.1
  let violation := entry.2
  let revalidated :=
    if st.processedPaths.any (fun processedPath => strStartsWith processedPath violation.path) then
      let valueAtPath := (jsonGet (pointerSegments violation.path) st.newSnapshot).getD .undef
      (validate violation.type valueAtPath [⟨"", violation.type⟩]).isEmpty
    else false
  if revalidated then
    { st with processedPaths := addProcessed st.processedPaths violation.path }
  else
    let st1 :=
      if violation.isNested then
        if violation.type.isOptionalType then
          { st with
              newSnapshot :=
                jsonAssign (pointerSegments violation.path) st.newSnapshot
                  (createDefaultValue violation.type) }
        else
          match tryResolveNearestExistingParent model storeSnapshot tree pos with
          | some nearestParent =>
              if nearestParent.type.isMapType || nearestParent.type.isArrayType then
                { st with
                    newSnapshot :=
                      jsonRemove (pointerSegments nearestParent.childPath) st.newSnapshot,
                    processedPaths := addProcessed st.processedPaths nearestParent.childPath }
              else
                let replaced :=
                  if nearestParent.type.isOptionalType then
                    jsonAssign (pointerSegments nearestParent.nearestParentPath) st.newSnapshot
                      (createDefaultValue nearestParent.type)
                  else
                    jsonAssign (pointerSegments nearestParent.nearestParentPath) st.newSnapshot
                      ((jsonGet (pointerSegments nearestParent.nearestParentPath)
                        storeSnapshot).getD .undef)
                { st with
                    newSnapshot := replaced,
                    processedPaths :=
                      addProcessed
                        (addProcessed st.processedPaths nearestParent.nearestParentPath)
                        nearestParent.childPath }
          | none =>
              { st with
                  newSnapshot := jsonRemove (pointerSegments violation.path) st.newSnapshot }
      else
        if violation.type.isOptionalType then
          { st with
              newSnapshot :=
                jsonAssign (pointerSegments violation.path) st.newSnapshot
                  (createDefaultValue violation.type) }
        else
          { st with
              newSnapshot :=
                jsonAssign (pointerSegments violation.path) st.newSnapshot
                  ((jsonGet (pointerSegments violation.path) storeSnapshot).getD .undef) }
    { st1 with processedPaths := addProcessed st1.processedPaths violation.path }

/-- The repair pass of hydrateStore's catch block (lines 226-321): validate the
candidate, build the violation trie, deep-copy the candidate, process every
violation in reverse depth-first order, then strip the holes left by
deletions. -/
def repairSnapshot (model : SchemaNode) (storeSnapshot : JsonValue) (snapshot : JsonValue) :
    JsonValue :=
  let validationErrors := validate model snapshot [⟨"", model⟩]
  let errors := transformErrorsToObjects validationErrors
  let tree := buildTree errors
  let newSnapshot := jsonRoundTrip snapshot
  let finalState :=
    (reverseDepthFirstTraversal tree).foldl (processViolation model storeSnapshot tree)
      ⟨newSnapshot, []⟩
  removeEmptyItemsRecursively finalState.newSnapshot

/-- A JavaScript exception as observed by hydrateStore's catch clause: whether
it is an `Error` instance, and its message. -/
structure JsError where
  isErrorInstance : Bool
  message : String
deriving Repr

/-- The structural-validation error raised by a failing `applySnapshot`: an
`Error` whose message starts with the mobx-state-tree prefix.  (The real
message text also stringifies the offending snapshot, but it remains a bare
message string: the thrown error carries no document values.) -/
def mstTypeError : JsError :=
  ⟨true, "[mobx-state-tree] Error while converting a snapshot to a model instance"⟩

/-- Modelled from the spec: `apply(liveInstance, document)` (§6) — the atomic
whole-tree update `applySnapshot(store, snapshot)`.  It succeeds exactly when
the snapshot has no validation errors, after which the store holds the
snapshot; otherwise it raises a structural-validation error distinguishable by
its message prefix. -/
def applySnapshotModel (model : SchemaNode) (snapshot : JsonValue) : Except JsError JsonValue :=
  if (validate model snapshot [⟨"", model⟩]).isEmpty then .ok snapshot
  else .error mstTypeError

/-- The catch clause of hydrateStore (lines 224-325), given the error raised by
the initial apply: a mobx-state-tree `Error` triggers the repair pass followed
by the second apply (whose own failure propagates raw, uncaught); any other
exception is swallowed by the `if` without an `else`, returning normally with
the store untouched. -/
def hydrateCatch (model : SchemaNode) (storeSnapshot : JsonValue) (snapshot : JsonValue)
    (error : JsError) : Except JsError JsonValue :=
  if error.isErrorInstance && strStartsWith error.message ("[mobx-state-tree]") then
    applySnapshotModel model (repairSnapshot model storeSnapshot snapshot)
  else
    .ok storeSnapshot

/-- Transcribed from hydrate-store.ts, `hydrateStore` (lines 217-326), as a
function from the store's current document and the candidate snapshot to the
store's resulting document (`.ok`, the value the live store holds afterwards)
or the exception that escapes (`.error`).  The initial `applySnapshot` either
succeeds (the store now holds the candidate) or raises into the catch
clause. -/
def hydrateStore (model : SchemaNode) (storeSnapshot : JsonValue) (snapshot : JsonValue) :
    Except JsError JsonValue :=
  match applySnapshotModel model snapshot with
  | .ok applied => .ok applied
  | .error e => hydrateCatch model storeSnapshot snapshot e

/-- The violation stored at an exact trie position, if any. -/
def valueAt (t : TreeNode) (segs : List String) : Option PathObject :=
  match nodeAt t segs with
  | some n => n.value
  | none => none

/-- `s` occurs as a subtree of `t` (reflexively, or inside some child). -/
inductive IsSubtree : TreeNode → TreeNode → Prop where
  | exact (t : TreeNode) : IsSubtree t t
  | viaChild {s c : TreeNode} {k : String} {v : Option PathObject}
      {ns : List (String × TreeNode)} :
      IsSubtree s c → (k, c) ∈ ns → IsSubtree s (.mk v ns)

mutual
/-- The value contains no JavaScript `undefined` anywhere (candidates parsed
from JSON storage always satisfy this). -/
def noUndef : JsonValue → Bool
  | .undef => false
  | .arr items => noUndefItems items
  | .obj kvs => noUndefFields kvs
  | _ => true

/-- `noUndef` over an array's elements. -/
def noUndefItems : List JsonValue → Bool
  | [] => true
  | item :: rest => noUndef item && noUndefItems rest

/-- `noUndef` over an object's field values. -/
def noUndefFields : List (String × JsonValue) → Bool
  | [] => true
  | (_, v) :: rest => noUndef v && noUndefFields rest
end

mutual
/-- No array anywhere in the value contains an `undefined` slot (the shape
guaranteed after hole compaction; object fields are not compacted and are
only checked recursively). -/
def arraysCompact : JsonValue → Bool
  | .arr items => arraysCompactItems items
  | .obj kvs => arraysCompactFields kvs
  | _ => true

/-- `arraysCompact` over an array's elements, additionally requiring that no
element is itself an `undefined` hole. -/
def arraysCompactItems : List JsonValue → Bool
  | [] => true
  | item :: rest => !item.isUndef && arraysCompact item && arraysCompactItems rest

/-- `arraysCompact` over an object's field values. -/
def arraysCompactFields : List (String × JsonValue) → Bool
  | [] => true
  | (_, v) :: rest => arraysCompact v && arraysCompactFields rest
end

mutual
/-- Fuel-driven core of the live instance's document read-back (see
`materializeDefaults`).  Like the validator, the recursion descends through
schema and value simultaneously, so it is realised with fuel; the measure
`schemaSize schema + valueSize value` suffices (`matGo_step` below).  An
`Optional` position holding `undefined` reads back as the node's stored
default snapshot (itself already materialised, being the snapshot of a
created instance); every other wrapper and collection reads back
element-wise, and a `Record` reads back exactly its declared fields. -/
def matGo : Nat → SchemaNode → JsonValue → JsonValue
  | 0, _, v => v
  | d + 1, schema, v =>
      match schema with
      | .prim _ => v
      | .optional inner dflt => if v.isUndef then dflt else matGo d inner v
      | .nullable inner => if v.isNull then v else matGo d inner v
      | .list el =>
          match v with
          | .arr items => .arr (matItemsGo d el items)
          | _ => v
      | .dict vt =>
          match v with
          | .obj kvs => .obj (matEntriesGo d vt kvs)
          | _ => v
      | .record fields =>
          match v with
          | .obj kvs => .obj (matFieldsGo d fields kvs)
          | _ => v

/-- Fuel-driven element loop of `List` read-back. -/
def matItemsGo : Nat → SchemaNode → List JsonValue → List JsonValue
  | 0, _, items => items
  | _ + 1, _, [] => []
  | d + 1, el, item :: rest => matGo d el item :: matItemsGo d el rest

/-- Fuel-driven entry loop of `Dictionary` read-back. -/
def matEntriesGo : Nat → SchemaNode → List (String × JsonValue) → List (String × JsonValue)
  | 0, _, kvs => kvs
  | _ + 1, _, [] => []
  | d + 1, vt, (k, v) :: rest => (k, matGo d vt v) :: matEntriesGo d vt rest

/-- Fuel-driven field loop of `Record` read-back: every declared field is read
back (a missing field reads as `undefined`, so an `Optional` field reads back
as its default); undeclared candidate fields do not survive the read-back. -/
def matFieldsGo : Nat → List (String × SchemaNode) → List (String × JsonValue) → List (String × JsonValue)
  | 0, _, kvs => kvs
  | _ + 1, [], _ => []
  | d + 1, (name, t) :: rest, kvs =>
      (name, matGo d t (lookupField kvs name)) :: matFieldsGo d rest kvs
end

/-- Modelled from the spec: the read-back `currentDocument(liveInstance)` (§6)
after a successful `apply` — mobx-state-tree's `getSnapshot(store)` following
`applySnapshot(store, snapshot)`.  The live instance materialises every
`Optional` node whose value is absent into that node's synthesized default
(§3: "absence/failure resolves to a schema-defined default"; cf. the §8
missing-optional scenario, schema `{title: optional<string>}` default `""`,
candidate `{}` → output `{title: ""}`), so the document the caller observes in
the store is the fully-materialised form of the applied snapshot.  The
recursion is realised by `matGo` with provably sufficient fuel
(`matGo_eq_mat` below). -/
def materializeDefaults (s : SchemaNode) (v : JsonValue) : JsonValue :=
  matGo (schemaSize s + valueSize v) s v

/-- The field loop of `Record` read-back, written as a recursion over
`materializeDefaults` itself; `mat_record_obj` proves the fuel implementation
satisfies this defining equation. -/
def matFields : List (String × SchemaNode) → List (String × JsonValue) → List (String × JsonValue)
  | [], _ => []
  | (name, t) :: rest, kvs =>
      (name, materializeDefaults t (lookupField kvs name)) :: matFields rest kvs

/-- Does the record field list declare `seg` exactly once?  (A mobx-state-tree
model, like a JavaScript object literal, cannot declare the same property
twice.) -/
def fieldsOnce : List (String × SchemaNode) → String → Bool
  | [], _ => false
  | (n, _) :: rest, seg =>
      if n == seg then rest.all (fun f => !(f.1 == seg)) else fieldsOnce rest seg

/-- The schema node declared at a record-field path: walk the declared fields
by segment name, requiring each traversed name to be declared exactly once.
This is the static counterpart of §6 `resolveSchemaAt`, used to state which
`Optional` leaf field a candidate omits. -/
def schemaAtPath : List String → SchemaNode → Option SchemaNode
  | [], sch => some sch
  | seg :: rest, .record fields =>
      if fieldsOnce fields seg = true then
        match (fields.find? (fun f => f.1 == seg)).map Prod.snd with
        | some t => schemaAtPath rest t
        | none => none
      else none
  | _ :: _, _ => none

/-! Concrete scenario data, shared by several of the claim theorems below.
Each triple is (schema, live store document, candidate document). -/

/-- The spec's §8 wrong-primitive scenario: `{name: string, age: number}`. -/
def exFlatModel : SchemaNode :=
  .record [("name", .prim .pstring), ("age", .prim .pnumber)]

/-- Live document of the wrong-primitive scenario. -/
def exFlatStore : JsonValue := .obj [("name", .str "A"), ("age", .num 1)]

/-- Candidate of the wrong-primitive scenario (`name` has the wrong type). -/
def exFlatCand : JsonValue := .obj [("name", .num 42), ("age", .num 5)]

/-- A required, non-optional nested record whose field can go wrong. -/
def exNestedModel : SchemaNode :=
  .record [("profile", .record [("firstName", .prim .pstring), ("lastName", .prim .pstring)])]

/-- Live document of the nested-record scenario. -/
def exNestedStore : JsonValue :=
  .obj [("profile", .obj [("firstName", .str "John"), ("lastName", .str "Doe")])]

/-- Candidate of the nested-record scenario: one field of the nested record
has the wrong type, the other is a well-typed (but unsaved) string. -/
def exNestedCand : JsonValue :=
  .obj [("profile", .obj [("firstName", .num 42), ("lastName", .str "X")])]

/-- A record with a list of strings. -/
def exListModel : SchemaNode := .record [("features", .list (.prim .pstring))]

/-- Live document of the list scenario. -/
def exListStore : JsonValue := .obj [("features", .arr [])]

/-- Candidate of the list scenario: three valid elements plus one invalid
element at index 1. -/
def exListCand : JsonValue :=
  .obj [("features", .arr [.str "a", .num 42, .str "b", .str "c"])]

/-- A record with a single optional leaf (`types.optional(types.string, '')`). -/
def exOptModel : SchemaNode :=
  .record [("title", .optional (.prim .pstring) (.str ""))]

/-- Live document of the optional-leaf scenario. -/
def exOptStore : JsonValue := .obj [("title", .str "t")]

/-- Candidate of the optional-leaf scenario: the optional leaf is corrupted. -/
def exOptCand : JsonValue := .obj [("title", .num 123)]

/-- Candidate of the spec's §8 missing-optional scenario: the optional leaf is
absent (`{}`). -/
def exMissCand : JsonValue := .obj []

/-- Schema for the processed-prefix counterexample: a required record `a` with
an optional field `y` (default `"dy"`) declared before a required field `x`,
so that the traversal visits `/a/x` before `/a/y`. -/
def exPrefixModel : SchemaNode :=
  .record [("a", .record [("y", .optional (.prim .pstring) (.str "dy")), ("x", .prim .pstring)])]

/-- Live document of the processed-prefix counterexample. -/
def exPrefixStore : JsonValue :=
  .obj [("a", .obj [("y", .str "sy"), ("x", .str "sx")])]

/-- Candidate of the processed-prefix counterexample: both fields of `a` are
invalid, so `/a` is wholesale-restored while repairing `/a/x`, after which
`/a/y` already holds the valid store value `"sy"`. -/
def exPrefixCand : JsonValue :=
  .obj [("a", .obj [("y", .num 17), ("x", .num 42)])]

/-- Schema for the fatal-failure counterexample: a required string plus a
`types.maybe` record (optional with `undefined` default, absent in the live
store). -/
def exMaybeModel : SchemaNode :=
  .record [("name", .prim .pstring),
    ("extra", .optional (.record [("a", .prim .pstring)]) .undef)]

/-- Live document of the fatal-failure counterexample: valid, with `extra`
absent. -/
def exMaybeStore : JsonValue := .obj [("name", .str "ok")]

/-- Candidate of the fatal-failure counterexample: `extra.a` has the wrong
type; no ancestor is resolvable (the trie has none and the live store's
`extra` is undefined), so `/extra/a` is deleted outright, leaving `extra`
an empty record that still fails to apply. -/
def exMaybeCand : JsonValue :=
  .obj [("name", .str "n"), ("extra", .obj [("a", .num 42)])]


/-- The violation the traversal visits first in the processed-prefix
counterexample (`/a/x`, required string). -/
def exPvX : PathObject :=
  { path := "/a/x", pathSegments := ["", "a", "x"], type := .prim .pstring, isNested := true }

/-- The violation the traversal visits second in the processed-prefix
counterexample (`/a/y`, optional string defaulting to `"dy"`). -/
def exPvY : PathObject :=
  { path := "/a/y", pathSegments := ["", "a", "y"],
    type := .optional (.prim .pstring) (.str "dy"), isNested := true }

/-- The violation trie of the processed-prefix counterexample. -/
def exPrefixTree : TreeNode :=
  buildTree (transformErrorsToObjects (validate exPrefixModel exPrefixCand [⟨"", exPrefixModel⟩]))

/-- The repair state after the first traversal step of the processed-prefix
counterexample: repairing `/a/x` wholesale-restored `/a` from the live store,
marking `/a` and `/a/x` processed. -/
def exPrefixState1 : RepairState :=
  processViolation exPrefixModel exPrefixStore exPrefixTree
    ⟨jsonRoundTrip exPrefixCand, []⟩ (["a", "x"], exPvX)


/-- The root-level violation of the wrong-primitive scenario. -/
def exPvName : PathObject :=
  { path := "/name", pathSegments := ["", "name"], type := .prim .pstring, isNested := false }

/-- The violation trie of the wrong-primitive scenario. -/
def exFlatTree : TreeNode :=
  buildTree (transformErrorsToObjects (validate exFlatModel exFlatCand [⟨"", exFlatModel⟩]))

/-- The nested violation of the nested-record scenario. -/
def exPvProfileFirst : PathObject :=
  { path := "/profile/firstName", pathSegments := ["", "profile", "firstName"],
    type := .prim .pstring, isNested := true }

/-- The violation trie of the nested-record scenario. -/
def exNestedTree : TreeNode :=
  buildTree (transformErrorsToObjects (validate exNestedModel exNestedCand [⟨"", exNestedModel⟩]))

/-- The nested violation of the list scenario (`/features/1`). -/
def exPvFeat1 : PathObject :=
  { path := "/features/1", pathSegments := ["", "features", "1"],
    type := .prim .pstring, isNested := true }

/-- The violation trie of the list scenario. -/
def exListTree : TreeNode :=
  buildTree (transformErrorsToObjects (validate exListModel exListCand [⟨"", exListModel⟩]))

/-- Two violations sharing the exact path `/a` with different rejecting types
(first a string, then a number rejection). -/
def exDupFirst : PathObject :=
  { path := "/a", pathSegments := ["", "a"], type := .prim .pstring, isNested := false }

/-- The later duplicate-path violation. -/
def exDupSecond : PathObject :=
  { path := "/a", pathSegments := ["", "a"], type := .prim .pnumber, isNested := false }

/-- A two-level violation trie used as the traversal witness. -/
def exTrieInner : TreeNode :=
  .mk (some exDupFirst) [("b", .mk (some exDupSecond) []), ("c", .mk none [])]

/-- The enclosing trie of the traversal witness. -/
def exTrieOuter : TreeNode :=
  .mk none [("a", exTrieInner), ("d", .mk (some exDupSecond) [])]

/-! Validator infrastructure: the fuel supplied by `validate` is sufficient,
and the fuel implementation satisfies the source's defining equations. -/

theorem schemaSize_pos (s : SchemaNode) : 0 < schemaSize s := by
  cases s <;> simp [schemaSize]

theorem schemaFieldsSize_pos (fields : List (String × SchemaNode)) :
    0 < schemaFieldsSize fields := by
  cases fields with
  | nil => simp [schemaFieldsSize]
  | cons f rest => cases f; simp [schemaFieldsSize]

theorem valueSize_pos (v : JsonValue) : 0 < valueSize v := by
  cases v <;> simp [valueSize]

theorem valueItemsSize_pos (items : List JsonValue) : 0 < valueItemsSize items := by
  cases items <;> simp [valueItemsSize]

theorem valueFieldsSize_pos (kvs : List (String × JsonValue)) : 0 < valueFieldsSize kvs := by
  cases kvs with
  | nil => simp [valueFieldsSize]
  | cons f rest => cases f; simp [valueFieldsSize]

theorem lookupField_size (kvs : List (String × JsonValue)) (name : String) :
    valueSize (lookupField kvs name) ≤ valueFieldsSize kvs := by
  induction kvs with
  | nil => simp [lookupField, valueSize, valueFieldsSize]
  | cons f rest ih =>
      obtain ⟨k, v⟩ := f
      by_cases hk : (k == name) = true
      · simp [lookupField, List.find?, hk, valueFieldsSize]
        omega
      · simp only [lookupField, List.find?, hk] at *
        simp [valueFieldsSize]
        omega

theorem validateGo_step (d : Nat) :
    (∀ s v ctx, schemaSize s + valueSize v ≤ d →
      validateGo (d + 1) s v ctx = validateGo d s v ctx) ∧
    (∀ el i items ctx, schemaSize el + valueItemsSize items ≤ d →
      validateItemsGo (d + 1) el i items ctx = validateItemsGo d el i items ctx) ∧
    (∀ vt kvs ctx, schemaSize vt + valueFieldsSize kvs ≤ d →
      validateEntriesGo (d + 1) vt kvs ctx = validateEntriesGo d vt kvs ctx) ∧
    (∀ fields kvs ctx, schemaFieldsSize fields + valueFieldsSize kvs ≤ d →
      validateFieldsGo (d + 1) fields kvs ctx = validateFieldsGo d fields kvs ctx) := by
  induction d using Nat.strong_induction_on with
  | _ d ih =>
    refine ⟨?_, ?_, ?_, ?_⟩
    · intro s v ctx hle
      obtain ⟨e, rfl⟩ : ∃ e, d = e + 1 :=
        ⟨d - 1, by have := schemaSize_pos s; have := valueSize_pos v; omega⟩
      cases s with
      | prim k => rfl
      | optional inner dflt =>
          have hsz : schemaSize (SchemaNode.optional inner dflt) = schemaSize inner + 1 := rfl
          have hb : schemaSize inner + valueSize v ≤ e := by rw [hsz] at hle; omega
          have u1 : validateGo (e + 1 + 1) (SchemaNode.optional inner dflt) v ctx
              = if v.isUndef then [] else validateGo (e + 1) inner v ctx := rfl
          have u2 : validateGo (e + 1) (SchemaNode.optional inner dflt) v ctx
              = if v.isUndef then [] else validateGo e inner v ctx := rfl
          rw [u1, u2, (ih e (by omega)).1 inner v ctx hb]
      | nullable inner =>
          have hsz : schemaSize (SchemaNode.nullable inner) = schemaSize inner + 1 := rfl
          have hb : schemaSize inner + valueSize v ≤ e := by rw [hsz] at hle; omega
          have u1 : validateGo (e + 1 + 1) (SchemaNode.nullable inner) v ctx
              = if v.isNull then []
                else if (validateGo (e + 1) inner v ctx).isEmpty then [] else [⟨ctx⟩] := rfl
          have u2 : validateGo (e + 1) (SchemaNode.nullable inner) v ctx
              = if v.isNull then []
                else if (validateGo e inner v ctx).isEmpty then [] else [⟨ctx⟩] := rfl
          rw [u1, u2, (ih e (by omega)).1 inner v ctx hb]
      | list el =>
          cases v with
          | arr items =>
              have hsz : schemaSize (SchemaNode.list el) + valueSize (JsonValue.arr items)
                  = schemaSize el + valueItemsSize items + 2 := by
                have ha : schemaSize (SchemaNode.list el) = schemaSize el + 1 := rfl
                have hb2 : valueSize (JsonValue.arr items) = valueItemsSize items + 1 := rfl
                omega
              have hb : schemaSize el + valueItemsSize items ≤ e := by rw [hsz] at hle; omega
              have u1 : validateGo (e + 1 + 1) (SchemaNode.list el) (JsonValue.arr items) ctx
                  = validateItemsGo (e + 1) el 0 items ctx := rfl
              have u2 : validateGo (e + 1) (SchemaNode.list el) (JsonValue.arr items) ctx
                  = validateItemsGo e el 0 items ctx := rfl
              rw [u1, u2, (ih e (by omega)).2.1 el 0 items ctx hb]
          | str a => rfl
          | num a => rfl
          | bool a => rfl
          | null => rfl
          | undef => rfl
          | obj kvs => rfl
      | dict vt =>
          cases v with
          | obj kvs =>
              have hsz : schemaSize (SchemaNode.dict vt) + valueSize (JsonValue.obj kvs)
                  = schemaSize vt + valueFieldsSize kvs + 2 := by
                have ha : schemaSize (SchemaNode.dict vt) = schemaSize vt + 1 := rfl
                have hb2 : valueSize (JsonValue.obj kvs) = valueFieldsSize kvs + 1 := rfl
                omega
              have hb : schemaSize vt + valueFieldsSize kvs ≤ e := by rw [hsz] at hle; omega
              have u1 : validateGo (e + 1 + 1) (SchemaNode.dict vt) (JsonValue.obj kvs) ctx
                  = validateEntriesGo (e + 1) vt kvs ctx := rfl
              have u2 : validateGo (e + 1) (SchemaNode.dict vt) (JsonValue.obj kvs) ctx
                  = validateEntriesGo e vt kvs ctx := rfl
              rw [u1, u2, (ih e (by omega)).2.2.1 vt kvs ctx hb]
          | str a => rfl
          | num a => rfl
          | bool a => rfl
          | null => rfl
          | undef => rfl
          | arr items => rfl
      | record fields =>
          cases v with
          | obj kvs =>
              have hsz : schemaSize (SchemaNode.record fields) + valueSize (JsonValue.obj kvs)
                  = schemaFieldsSize fields + valueFieldsSize kvs + 2 := by
                have ha : schemaSize (SchemaNode.record fields) = schemaFieldsSize fields + 1 := rfl
                have hb2 : valueSize (JsonValue.obj kvs) = valueFieldsSize kvs + 1 := rfl
                omega
              have hb : schemaFieldsSize fields + valueFieldsSize kvs ≤ e := by
                rw [hsz] at hle; omega
              have u1 : validateGo (e + 1 + 1) (SchemaNode.record fields) (JsonValue.obj kvs) ctx
                  = validateFieldsGo (e + 1) fields kvs ctx := rfl
              have u2 : validateGo (e + 1) (SchemaNode.record fields) (JsonValue.obj kvs) ctx
                  = validateFieldsGo e fields kvs ctx := rfl
              rw [u1, u2, (ih e (by omega)).2.2.2 fields kvs ctx hb]
          | str a => rfl
          | num a => rfl
          | bool a => rfl
          | null => rfl
          | undef => rfl
          | arr items => rfl
    · intro el i items ctx hle
      obtain ⟨e, rfl⟩ : ∃ e, d = e + 1 :=
        ⟨d - 1, by have := schemaSize_pos el; have := valueItemsSize_pos items; omega⟩
      cases items with
      | nil => rfl
      | cons item rest =>
          have hsz : valueItemsSize (item :: rest) = valueSize item + valueItemsSize rest + 1 := rfl
          have h1 : schemaSize el + valueSize item ≤ e := by rw [hsz] at hle; omega
          have h2 : schemaSize el + valueItemsSize rest ≤ e := by
            have := valueSize_pos item; rw [hsz] at hle; omega
          have u1 : validateItemsGo (e + 1 + 1) el i (item :: rest) ctx
              = validateGo (e + 1) el item (ctx ++ [⟨toString i, el⟩])
                ++ validateItemsGo (e + 1) el (i + 1) rest ctx := rfl
          have u2 : validateItemsGo (e + 1) el i (item :: rest) ctx
              = validateGo e el item (ctx ++ [⟨toString i, el⟩])
                ++ validateItemsGo e el (i + 1) rest ctx := rfl
          rw [u1, u2, (ih e (by omega)).1 el item _ h1,
            (ih e (by omega)).2.1 el (i + 1) rest ctx h2]
    · intro vt kvs ctx hle
      obtain ⟨e, rfl⟩ : ∃ e, d = e + 1 :=
        ⟨d - 1, by have := schemaSize_pos vt; have := valueFieldsSize_pos kvs; omega⟩
      cases kvs with
      | nil => rfl
      | cons kv rest =>
          obtain ⟨k, v⟩ := kv
          have hsz : valueFieldsSize ((k, v) :: rest) = valueSize v + valueFieldsSize rest + 1 := rfl
          have h1 : schemaSize vt + valueSize v ≤ e := by rw [hsz] at hle; omega
          have h2 : schemaSize vt + valueFieldsSize rest ≤ e := by
            have := valueSize_pos v; rw [hsz] at hle; omega
          have u1 : validateEntriesGo (e + 1 + 1) vt ((k, v) :: rest) ctx
              = validateGo (e + 1) vt v (ctx ++ [⟨k, vt⟩])
                ++ validateEntriesGo (e + 1) vt rest ctx := rfl
          have u2 : validateEntriesGo (e + 1) vt ((k, v) :: rest) ctx
              = validateGo e vt v (ctx ++ [⟨k, vt⟩]) ++ validateEntriesGo e vt rest ctx := rfl
          rw [u1, u2, (ih e (by omega)).1 vt v _ h1, (ih e (by omega)).2.2.1 vt rest ctx h2]
    · intro fields kvs ctx hle
      obtain ⟨e, rfl⟩ : ∃ e, d = e + 1 :=
        ⟨d - 1, by have := schemaFieldsSize_pos fields; have := valueFieldsSize_pos kvs; omega⟩
      cases fields with
      | nil => rfl
      | cons f rest =>
          obtain ⟨name, t⟩ := f
          have hsz : schemaFieldsSize ((name, t) :: rest)
              = schemaSize t + schemaFieldsSize rest + 1 := rfl
          have h1 : schemaSize t + valueSize (lookupField kvs name) ≤ e := by
            have := lookupField_size kvs name
            have := schemaFieldsSize_pos rest
            rw [hsz] at hle; omega
          have h2 : schemaFieldsSize rest + valueFieldsSize kvs ≤ e := by
            have := schemaSize_pos t; rw [hsz] at hle; omega
          have u1 : validateFieldsGo (e + 1 + 1) ((name, t) :: rest) kvs ctx
              = validateGo (e + 1) t (lookupField kvs name) (ctx ++ [⟨name, t⟩])
                ++ validateFieldsGo (e + 1) rest kvs ctx := rfl
          have u2 : validateFieldsGo (e + 1) ((name, t) :: rest) kvs ctx
              = validateGo e t (lookupField kvs name) (ctx ++ [⟨name, t⟩])
                ++ validateFieldsGo e rest kvs ctx := rfl
          rw [u1, u2, (ih e (by omega)).1 t (lookupField kvs name) _ h1,
            (ih e (by omega)).2.2.2 rest kvs ctx h2]

theorem validateGo_add (k : Nat) :
    ∀ d s v ctx, schemaSize s + valueSize v ≤ d →
      validateGo (d + k) s v ctx = validateGo d s v ctx := by
  induction k with
  | zero => intro d s v ctx _; rfl
  | succ k ihk =>
      intro d s v ctx h
      have h2 : schemaSize s + valueSize v ≤ d + k := by omega
      have : d + (k + 1) = (d + k) + 1 := by omega
      rw [this, (validateGo_step (d + k)).1 s v ctx h2, ihk d s v ctx h]

theorem validateItemsGo_add (k : Nat) :
    ∀ d el i items ctx, schemaSize el + valueItemsSize items ≤ d →
      validateItemsGo (d + k) el i items ctx = validateItemsGo d el i items ctx := by
  induction k with
  | zero => intro d el i items ctx _; rfl
  | succ k ihk =>
      intro d el i items ctx h
      have h2 : schemaSize el + valueItemsSize items ≤ d + k := by omega
      have : d + (k + 1) = (d + k) + 1 := by omega
      rw [this, (validateGo_step (d + k)).2.1 el i items ctx h2, ihk d el i items ctx h]

theorem validateEntriesGo_add (k : Nat) :
    ∀ d vt kvs ctx, schemaSize vt + valueFieldsSize kvs ≤ d →
      validateEntriesGo (d + k) vt kvs ctx = validateEntriesGo d vt kvs ctx := by
  induction k with
  | zero => intro d vt kvs ctx _; rfl
  | succ k ihk =>
      intro d vt kvs ctx h
      have h2 : schemaSize vt + valueFieldsSize kvs ≤ d + k := by omega
      have : d + (k + 1) = (d + k) + 1 := by omega
      rw [this, (validateGo_step (d + k)).2.2.1 vt kvs ctx h2, ihk d vt kvs ctx h]

theorem validateFieldsGo_add (k : Nat) :
    ∀ d fields kvs ctx, schemaFieldsSize fields + valueFieldsSize kvs ≤ d →
      validateFieldsGo (d + k) fields kvs ctx = validateFieldsGo d fields kvs ctx := by
  induction k with
  | zero => intro d fields kvs ctx _; rfl
  | succ k ihk =>
      intro d fields kvs ctx h
      have h2 : schemaFieldsSize fields + valueFieldsSize kvs ≤ d + k := by omega
      have : d + (k + 1) = (d + k) + 1 := by omega
      rw [this, (validateGo_step (d + k)).2.2.2 fields kvs ctx h2, ihk d fields kvs ctx h]

theorem validateGo_eq_validate (d : Nat) (s : SchemaNode) (v : JsonValue)
    (ctx : List ContextEntry) (h : schemaSize s + valueSize v ≤ d) :
    validateGo d s v ctx = validate s v ctx := by
  have hd : d = (schemaSize s + valueSize v) + (d - (schemaSize s + valueSize v)) := by omega
  rw [validate, hd, validateGo_add _ _ s v ctx (by omega)]

/-- Defining equation of `validate` at a primitive schema (§4.1). -/
theorem validate_prim (k : PrimKind) (v : JsonValue) (ctx : List ContextEntry) :
    validate (.prim k) v ctx = if primCheck k v then [] else [⟨ctx⟩] := by
  have h1 : schemaSize (SchemaNode.prim k) + valueSize v = valueSize v + 1 := by
    have : schemaSize (SchemaNode.prim k) = 1 := rfl
    omega
  rw [validate, h1]
  rfl

/-- Defining equation of `validate` at an `Optional` node: absence is valid,
any other value is validated against the inner type under the same context,
so a shallow failure is reported against the wrapper (§4.1). -/
theorem validate_optional (inner : SchemaNode) (dflt v : JsonValue) (ctx : List ContextEntry) :
    validate (.optional inner dflt) v ctx
      = if v.isUndef then [] else validate inner v ctx := by
  have h1 : schemaSize (SchemaNode.optional inner dflt) + valueSize v
      = (schemaSize inner + valueSize v) + 1 := by
    have : schemaSize (SchemaNode.optional inner dflt) = schemaSize inner + 1 := rfl
    omega
  rw [validate, h1]
  rfl

/-- Defining equation of `validate` at a `Nullable` node: `null` is valid, any
other value failing the inner type yields one violation at the wrapper's own
context (§4.1, mirroring the single union error of `types.maybeNull`). -/
theorem validate_nullable (inner : SchemaNode) (v : JsonValue) (ctx : List ContextEntry) :
    validate (.nullable inner) v ctx
      = if v.isNull then []
        else if (validate inner v ctx).isEmpty then [] else [⟨ctx⟩] := by
  have h1 : schemaSize (SchemaNode.nullable inner) + valueSize v
      = (schemaSize inner + valueSize v) + 1 := by
    have : schemaSize (SchemaNode.nullable inner) = schemaSize inner + 1 := rfl
    omega
  rw [validate, h1]
  rfl

/-- Defining equation of `validate` at a `List` node on a non-array value:
one violation at the current context (§4.1). -/
theorem validate_list_shape (el : SchemaNode) (v : JsonValue) (ctx : List ContextEntry)
    (h : ∀ items, v ≠ .arr items) :
    validate (.list el) v ctx = [⟨ctx⟩] := by
  have h1 : schemaSize (SchemaNode.list el) + valueSize v
      = (schemaSize el + valueSize v) + 1 := by
    have : schemaSize (SchemaNode.list el) = schemaSize el + 1 := rfl
    omega
  rw [validate, h1]
  cases v with
  | arr items => exact absurd rfl (h items)
  | str a => rfl
  | num a => rfl
  | bool a => rfl
  | null => rfl
  | undef => rfl
  | obj kvs => rfl

/-- Defining equation of `validate` at a `List` node on an array: every
element is validated against the element schema with its index appended, with
no short-circuiting (§4.1). -/
theorem validate_list_arr (el : SchemaNode) (items : List JsonValue) (ctx : List ContextEntry) :
    validate (.list el) (.arr items) ctx = validateItems el 0 items ctx := by
  have key : ∀ items i ctx, validateItemsGo (schemaSize el + valueItemsSize items) el i items ctx
      = validateItems el i items ctx := by
    intro items
    induction items with
    | nil => intro i ctx; rfl
    | cons item rest ihr =>
        intro i ctx
        have hsz : valueItemsSize (item :: rest)
            = valueSize item + valueItemsSize rest + 1 := rfl
        obtain ⟨e, he⟩ : ∃ e, schemaSize el + valueItemsSize (item :: rest) = e + 1 :=
          ⟨schemaSize el + valueSize item + valueItemsSize rest, by omega⟩
        rw [he]
        have u1 : validateItemsGo (e + 1) el i (item :: rest) ctx
            = validateGo e el item (ctx ++ [⟨toString i, el⟩])
              ++ validateItemsGo e el (i + 1) rest ctx := rfl
        rw [u1, validateGo_eq_validate e el item _ (by omega)]
        have hrest : validateItemsGo e el (i + 1) rest ctx
            = validateItemsGo (schemaSize el + valueItemsSize rest) el (i + 1) rest ctx := by
          have hd : e = (schemaSize el + valueItemsSize rest)
              + (e - (schemaSize el + valueItemsSize rest)) := by
            have := valueSize_pos item; omega
          rw [hd, validateItemsGo_add _ _ el (i + 1) rest ctx (by omega)]
        rw [hrest, ihr (i + 1) ctx]
        rfl
  have h1 : schemaSize (SchemaNode.list el) + valueSize (JsonValue.arr items)
      = (schemaSize el + valueItemsSize items) + 2 := by
    have ha : schemaSize (SchemaNode.list el) = schemaSize el + 1 := rfl
    have hb : valueSize (JsonValue.arr items) = valueItemsSize items + 1 := rfl
    omega
  have h2 : (schemaSize el + valueItemsSize items) + 2
      = ((schemaSize el + valueItemsSize items) + 1) + 1 := by omega
  rw [validate, h1, h2]
  have u0 : validateGo ((schemaSize el + valueItemsSize items) + 1 + 1)
      (SchemaNode.list el) (JsonValue.arr items) ctx
      = validateItemsGo ((schemaSize el + valueItemsSize items) + 1) el 0 items ctx := rfl
  rw [u0, validateItemsGo_add 1 _ el 0 items ctx (by omega), key items 0 ctx]

/-- Defining equation of `validate` at a `Dictionary` node on a non-object
value: one violation at the current context (§4.1). -/
theorem validate_dict_shape (vt : SchemaNode) (v : JsonValue) (ctx : List ContextEntry)
    (h : ∀ kvs, v ≠ .obj kvs) :
    validate (.dict vt) v ctx = [⟨ctx⟩] := by
  have h1 : schemaSize (SchemaNode.dict vt) + valueSize v
      = (schemaSize vt + valueSize v) + 1 := by
    have : schemaSize (SchemaNode.dict vt) = schemaSize vt + 1 := rfl
    omega
  rw [validate, h1]
  cases v with
  | obj kvs => exact absurd rfl (h kvs)
  | str a => rfl
  | num a => rfl
  | bool a => rfl
  | null => rfl
  | undef => rfl
  | arr items => rfl

/-- Defining equation of `validate` at a `Dictionary` node on an object: every
entry is validated against the value schema with its key appended, with no
short-circuiting (§4.1). -/
theorem validate_dict_obj (vt : SchemaNode) (kvs : List (String × JsonValue))
    (ctx : List ContextEntry) :
    validate (.dict vt) (.obj kvs) ctx = validateEntries vt kvs ctx := by
  have key : ∀ kvs ctx, validateEntriesGo (schemaSize vt + valueFieldsSize kvs) vt kvs ctx
      = validateEntries vt kvs ctx := by
    intro kvs
    induction kvs with
    | nil => intro ctx; rfl
    | cons kv rest ihr =>
        obtain ⟨k, v⟩ := kv
        intro ctx
        have hsz : valueFieldsSize ((k, v) :: rest)
            = valueSize v + valueFieldsSize rest + 1 := rfl
        obtain ⟨e, he⟩ : ∃ e, schemaSize vt + valueFieldsSize ((k, v) :: rest) = e + 1 :=
          ⟨schemaSize vt + valueSize v + valueFieldsSize rest, by omega⟩
        rw [he]
        have u1 : validateEntriesGo (e + 1) vt ((k, v) :: rest) ctx
            = validateGo e vt v (ctx ++ [⟨k, vt⟩]) ++ validateEntriesGo e vt rest ctx := rfl
        rw [u1, validateGo_eq_validate e vt v _ (by omega)]
        have hrest : validateEntriesGo e vt rest ctx
            = validateEntriesGo (schemaSize vt + valueFieldsSize rest) vt rest ctx := by
          have hd : e = (schemaSize vt + valueFieldsSize rest)
              + (e - (schemaSize vt + valueFieldsSize rest)) := by
            have := valueSize_pos v; omega
          rw [hd, validateEntriesGo_add _ _ vt rest ctx (by omega)]
        rw [hrest, ihr ctx]
        rfl
  have h1 : schemaSize (SchemaNode.dict vt) + valueSize (JsonValue.obj kvs)
      = (schemaSize vt + valueFieldsSize kvs) + 2 := by
    have ha : schemaSize (SchemaNode.dict vt) = schemaSize vt + 1 := rfl
    have hb : valueSize (JsonValue.obj kvs) = valueFieldsSize kvs + 1 := rfl
    omega
  have h2 : (schemaSize vt + valueFieldsSize kvs) + 2
      = ((schemaSize vt + valueFieldsSize kvs) + 1) + 1 := by omega
  rw [validate, h1, h2]
  have u0 : validateGo ((schemaSize vt + valueFieldsSize kvs) + 1 + 1)
      (SchemaNode.dict vt) (JsonValue.obj kvs) ctx
      = validateEntriesGo ((schemaSize vt + valueFieldsSize kvs) + 1) vt kvs ctx := rfl
  rw [u0, validateEntriesGo_add 1 _ vt kvs ctx (by omega), key kvs ctx]

/-- Defining equation of `validate` at a `Record` node on a non-object value:
one violation at the current context (§4.1). -/
theorem validate_record_shape (fields : List (String × SchemaNode)) (v : JsonValue)
    (ctx : List ContextEntry) (h : ∀ kvs, v ≠ .obj kvs) :
    validate (.record fields) v ctx = [⟨ctx⟩] := by
  have h1 : schemaSize (SchemaNode.record fields) + valueSize v
      = (schemaFieldsSize fields + valueSize v) + 1 := by
    have : schemaSize (SchemaNode.record fields) = schemaFieldsSize fields + 1 := rfl
    omega
  rw [validate, h1]
  cases v with
  | obj kvs => exact absurd rfl (h kvs)
  | str a => rfl
  | num a => rfl
  | bool a => rfl
  | null => rfl
  | undef => rfl
  | arr items => rfl

/-- Defining equation of `validate` at a `Record` node on an object: every
declared field is validated against its declared type (missing fields read as
`undefined`; undeclared candidate fields are ignored), with no
short-circuiting (§4.1). -/
theorem validate_record_obj (fields : List (String × SchemaNode))
    (kvs : List (String × JsonValue)) (ctx : List ContextEntry) :
    validate (.record fields) (.obj kvs) ctx = validateFields fields kvs ctx := by
  have key : ∀ fields ctx,
      validateFieldsGo (schemaFieldsSize fields + valueFieldsSize kvs) fields kvs ctx
        = validateFields fields kvs ctx := by
    intro fields
    induction fields with
    | nil =>
        intro ctx
        have h0 : schemaFieldsSize ([] : List (String × SchemaNode)) + valueFieldsSize kvs
            = valueFieldsSize kvs + 1 := by
          have : schemaFieldsSize ([] : List (String × SchemaNode)) = 1 := rfl
          omega
        rw [h0]
        rfl
    | cons f rest ihr =>
        obtain ⟨name, t⟩ := f
        intro ctx
        have hsz : schemaFieldsSize ((name, t) :: rest)
            = schemaSize t + schemaFieldsSize rest + 1 := rfl
        obtain ⟨e, he⟩ : ∃ e, schemaFieldsSize ((name, t) :: rest) + valueFieldsSize kvs
            = e + 1 :=
          ⟨schemaSize t + schemaFieldsSize rest + valueFieldsSize kvs, by omega⟩
        rw [he]
        have u1 : validateFieldsGo (e + 1) ((name, t) :: rest) kvs ctx
            = validateGo e t (lookupField kvs name) (ctx ++ [⟨name, t⟩])
              ++ validateFieldsGo e rest kvs ctx := rfl
        have hlk := lookupField_size kvs name
        have hrp := schemaFieldsSize_pos rest
        rw [u1, validateGo_eq_validate e t (lookupField kvs name) _ (by omega)]
        have hrest : validateFieldsGo e rest kvs ctx
            = validateFieldsGo (schemaFieldsSize rest + valueFieldsSize kvs) rest kvs ctx := by
          have hst := schemaSize_pos t
          have hd : e = (schemaFieldsSize rest + valueFieldsSize kvs)
              + (e - (schemaFieldsSize rest + valueFieldsSize kvs)) := by omega
          rw [hd, validateFieldsGo_add _ _ rest kvs ctx (by omega)]
        rw [hrest, ihr ctx]
        rfl
  have h1 : schemaSize (SchemaNode.record fields) + valueSize (JsonValue.obj kvs)
      = (schemaFieldsSize fields + valueFieldsSize kvs) + 2 := by
    have ha : schemaSize (SchemaNode.record fields) = schemaFieldsSize fields + 1 := rfl
    have hb : valueSize (JsonValue.obj kvs) = valueFieldsSize kvs + 1 := rfl
    omega
  have h2 : (schemaFieldsSize fields + valueFieldsSize kvs) + 2
      = ((schemaFieldsSize fields + valueFieldsSize kvs) + 1) + 1 := by omega
  rw [validate, h1, h2]
  have u0 : validateGo ((schemaFieldsSize fields + valueFieldsSize kvs) + 1 + 1)
      (SchemaNode.record fields) (JsonValue.obj kvs) ctx
      = validateFieldsGo ((schemaFieldsSize fields + valueFieldsSize kvs) + 1) fields kvs ctx := rfl
  rw [u0, validateFieldsGo_add 1 _ fields kvs ctx (by omega), key fields ctx]

/-! hydrateStore-level facts. -/

theorem applySnapshotModel_ok {model : SchemaNode} {snap out : JsonValue}
    (h : applySnapshotModel model snap = .ok out) :
    out = snap ∧ validate model snap [⟨"", model⟩] = [] := by
  unfold applySnapshotModel at h
  split at h
  · next hv =>
      injection h with h2
      exact ⟨h2.symm, List.isEmpty_iff.mp hv⟩
  · cases h

theorem applySnapshotModel_error {model : SchemaNode} {snap : JsonValue} {e : JsError}
    (h : applySnapshotModel model snap = .error e) : e = mstTypeError := by
  unfold applySnapshotModel at h
  split at h
  · cases h
  · injection h with h2
    exact h2.symm

theorem applySnapshotModel_of_valid {model : SchemaNode} {snap : JsonValue}
    (h : validate model snap [⟨"", model⟩] = []) :
    applySnapshotModel model snap = .ok snap := by
  unfold applySnapshotModel
  rw [h]
  rfl

theorem hydrateCatch_mst (model : SchemaNode) (storeSnapshot snapshot : JsonValue) :
    hydrateCatch model storeSnapshot snapshot mstTypeError
      = applySnapshotModel model (repairSnapshot model storeSnapshot snapshot) := rfl

theorem hydrateStore_ok_valid {model : SchemaNode} {storeSnapshot snapshot out : JsonValue}
    (h : hydrateStore model storeSnapshot snapshot = .ok out) :
    validate model out [⟨"", model⟩] = [] := by
  unfold hydrateStore at h
  cases happ : applySnapshotModel model snapshot with
  | ok applied =>
      rw [happ] at h
      injection h with h2
      obtain ⟨rfl, hv⟩ := applySnapshotModel_ok happ
      rw [h2] at hv
      exact hv
  | error e =>
      rw [happ, applySnapshotModel_error happ] at h
      have h3 : applySnapshotModel model (repairSnapshot model storeSnapshot snapshot)
          = .ok out := h
      obtain ⟨rfl, hv⟩ := applySnapshotModel_ok h3
      exact hv

/-- C1: whenever `hydrateStore` returns without raising, the document held by
the live store afterwards (the `.ok` payload: the candidate on a clean first
apply, or the repaired document accepted by the second apply) validates
against the schema. -/
theorem c1_nonfatal_output_validates (model : SchemaNode)
    (storeSnapshot snapshot out : JsonValue)
    (h : hydrateStore model storeSnapshot snapshot = .ok out) :
    validate model out [⟨"", model⟩] = [] :=
  hydrateStore_ok_valid h

/-- Witness for C1 at the spec's wrong-primitive scenario: the run repairs
`name` from the live document and the result validates. -/
theorem c1_witness :
    validate exFlatModel (.obj [("name", .str "A"), ("age", .num 5)]) [⟨"", exFlatModel⟩]
      = [] :=
  c1_nonfatal_output_validates exFlatModel exFlatStore exFlatCand
    (.obj [("name", .str "A"), ("age", .num 5)]) rfl

/-- C9: a non-fatal hydrate output is stable — hydrating the produced document
again (into any store state) returns it unchanged, because it applies cleanly
on the first attempt. -/
theorem c9_hydrate_idempotent (model : SchemaNode)
    (storeSnapshot storeSnapshot2 snapshot out : JsonValue)
    (h : hydrateStore model storeSnapshot snapshot = .ok out) :
    hydrateStore model storeSnapshot2 out = .ok out := by
  have hv := hydrateStore_ok_valid h
  unfold hydrateStore
  rw [applySnapshotModel_of_valid hv]

/-- Witness for C9 at the wrong-primitive scenario: re-hydrating the repaired
document (even over a different store state) reproduces it exactly. -/
theorem c9_witness :
    hydrateStore exFlatModel exFlatCand (.obj [("name", .str "A"), ("age", .num 5)])
      = .ok (.obj [("name", .str "A"), ("age", .num 5)]) :=
  c9_hydrate_idempotent exFlatModel exFlatStore exFlatCand exFlatCand
    (.obj [("name", .str "A"), ("age", .num 5)]) rfl

/-- C10: when the initial apply raises anything that is not an `Error` whose
message starts with `'[mobx-state-tree]'`, the catch clause of hydrateStore
(embodied by `hydrateCatch`, which `hydrateStore` invokes on the raised error)
swallows it: no validation or repair is attempted, the function returns
normally, the live store is unchanged, and no failure is signalled. -/
theorem c10_foreign_error_swallowed (model : SchemaNode)
    (storeSnapshot snapshot : JsonValue) (e : JsError)
    (h : (e.isErrorInstance && strStartsWith e.message ("[mobx-state-tree]")) = false) :
    hydrateCatch model storeSnapshot snapshot e = .ok storeSnapshot := by
  unfold hydrateCatch
  rw [h]
  rfl

/-- Witness for C10: a non-`Error` throw (e.g. a rejected storage promise
value) is silently swallowed and the store document survives untouched. -/
theorem c10_witness :
    ((JsError.mk false ("storage quota exceeded")).isErrorInstance
        && strStartsWith (JsError.mk false ("storage quota exceeded")).message
          ("[mobx-state-tree]")) = false
      ∧ hydrateCatch exFlatModel exFlatStore exFlatCand
          (JsError.mk false ("storage quota exceeded")) = .ok exFlatStore :=
  ⟨rfl, c10_foreign_error_swallowed exFlatModel exFlatStore exFlatCand
    (JsError.mk false ("storage quota exceeded")) rfl⟩

/-- C3 (corrected): when the second apply of the repaired document still
fails, hydrateStore propagates that apply's raw structural-validation error to
the caller unchanged — it is neither resolved internally nor dropped, but it
is the raw error, not a distinct error value carrying the candidate and the
repaired document. -/
theorem c3_amended_raw_error_propagates (model : SchemaNode)
    (storeSnapshot snapshot : JsonValue) (e0 e : JsError)
    (h1 : applySnapshotModel model snapshot = .error e0)
    (h2 : applySnapshotModel model (repairSnapshot model storeSnapshot snapshot) = .error e) :
    hydrateStore model storeSnapshot snapshot = .error e := by
  unfold hydrateStore
  rw [h1, applySnapshotModel_error h1]
  exact h2

/-- Counterexample to C3 as stated: a realistic fatal run (valid live store;
the candidate corrupts a field inside a `types.maybe` record that is absent
from the live store, so the repair deletes the field and the still-invalid
result fails the second apply).  hydrateStore surfaces exactly the raw
`mstTypeError` produced by re-applying the repaired document — a bare
error value with only an `Error` flag and a message string — not a distinct
error value carrying the original candidate and the repaired document. -/
theorem c3_counterexample :
    hydrateStore exMaybeModel exMaybeStore exMaybeCand = .error mstTypeError
      ∧ applySnapshotModel exMaybeModel
          (repairSnapshot exMaybeModel exMaybeStore exMaybeCand) = .error mstTypeError
      ∧ validate exMaybeModel exMaybeStore [⟨"", exMaybeModel⟩] = [] :=
  ⟨rfl, rfl, rfl⟩

/-- Witness for the amended C3 at the fatal scenario. -/
theorem c3_witness :
    hydrateStore exMaybeModel exMaybeStore exMaybeCand = .error mstTypeError :=
  c3_amended_raw_error_propagates exMaybeModel exMaybeStore exMaybeCand
    mstTypeError mstTypeError rfl rfl

/-- C2 (corrected): the revalidation short-circuit triggers when some
already-processed path *starts with* the violation's path (the exact path or a
descendant was already processed — a child fix may have fixed the parent), and
the current value at the path then revalidates: in that case the engine only
marks the path processed and performs no repair action.  An already-processed
strict *ancestor* of the path does not trigger the check. -/
theorem c2_amended_revalidation (model : SchemaNode) (storeSnapshot : JsonValue)
    (tree : TreeNode) (st : RepairState) (entry : List String × PathObject)
    (hguard : st.processedPaths.any
      (fun processedPath => strStartsWith processedPath entry.2.path) = true)
    (hreval : (validate entry.2.type
      ((jsonGet (pointerSegments entry.2.path) st.newSnapshot).getD .undef)
      [⟨"", entry.2.type⟩]).isEmpty = true) :
    processViolation model storeSnapshot tree st entry
      = { st with processedPaths := addProcessed st.processedPaths entry.2.path } := by
  unfold processViolation
  simp only [hguard, hreval, if_true]

/-- Witness for the amended C2: with `/a/y` itself already processed and the
working value there valid, the step only marks the path processed. -/
theorem c2_witness :
    processViolation exPrefixModel exPrefixStore exPrefixTree
        ⟨exPrefixStore, ["/a/y"]⟩ (["a", "y"], exPvY)
      = ⟨exPrefixStore, ["/a/y"]⟩ :=
  c2_amended_revalidation exPrefixModel exPrefixStore exPrefixTree
    ⟨exPrefixStore, ["/a/y"]⟩ (["a", "y"], exPvY) rfl rfl

/-- Counterexample to C2 as stated: in the processed-prefix run, when the
traversal visits the violation at `/a/y`, the already-processed path `/a` is a
(strict) prefix of `/a/y` — an ancestor fix (the wholesale restoration of `/a`
performed for `/a/x`) has already subsumed the location, and the current value
`"sy"` at `/a/y` validates against the rejecting `Optional` node.  The claim
requires the engine to re-validate, mark the path processed, and take no
further action; the code's guard instead tests
`processedPath.startsWith(error.value.path)` — the opposite direction — so no
revalidation happens and the engine overwrites the already-valid value with
the synthesized default `"dy"`. -/
theorem c2_counterexample :
    reverseDepthFirstTraversal exPrefixTree = [(["a", "x"], exPvX), (["a", "y"], exPvY)]
      ∧ exPrefixState1.processedPaths = ["/a", "/a/x"]
      ∧ strStartsWith exPvY.path ("/a") = true
      ∧ (validate exPvY.type
          ((jsonGet (pointerSegments exPvY.path) exPrefixState1.newSnapshot).getD .undef)
          [⟨"", exPvY.type⟩]).isEmpty = true
      ∧ jsonGet ["a", "y"] exPrefixState1.newSnapshot = some (.str "sy")
      ∧ jsonGet ["a", "y"]
          ((processViolation exPrefixModel exPrefixStore exPrefixTree exPrefixState1
            (["a", "y"], exPvY)).newSnapshot) = some (.str "dy")
      ∧ ("dy" : String) ≠ ("sy" : String)
      ∧ hydrateStore exPrefixModel exPrefixStore exPrefixCand
          = .ok (.obj [("a", .obj [("y", .str "dy"), ("x", .str "sx")])]) :=
  ⟨rfl, rfl, rfl, rfl, rfl, rfl, by decide, rfl⟩

/-! Hole compaction (C7 support): after `removeEmptyItemsRecursively`, no
array anywhere in the result contains an `undefined` slot, and nothing is
replaced by `null`. -/

mutual
theorem arraysCompact_rem : ∀ v, arraysCompact (removeEmptyItemsRecursively v) = true
  | .str _ => rfl
  | .num _ => rfl
  | .bool _ => rfl
  | .null => rfl
  | .undef => rfl
  | .arr items => arraysCompactItems_rem items
  | .obj kvs => arraysCompactFields_rem kvs

theorem arraysCompactItems_rem :
    ∀ items, arraysCompactItems (filterUndef (remItems items)) = true
  | [] => rfl
  | item :: rest => by
      cases h : (removeEmptyItemsRecursively item).isUndef with
      | true =>
          simp [remItems, filterUndef, List.filter_cons, h]
          have hr := arraysCompactItems_rem rest
          simp [filterUndef] at hr
          exact hr
      | false =>
          simp [remItems, filterUndef, List.filter_cons, h, arraysCompactItems,
            arraysCompact_rem item]
          have hr := arraysCompactItems_rem rest
          simp [filterUndef] at hr
          exact hr

theorem arraysCompactFields_rem :
    ∀ kvs, arraysCompactFields (remFields kvs) = true
  | [] => rfl
  | (_, v) :: rest => by
      simp [remFields, arraysCompactFields, arraysCompact_rem v,
        arraysCompactFields_rem rest]
end

/-- C6: repairing a non-Optional violation via the fallback document.  For a
nested violation whose nearest resolvable ancestor is a non-optional,
non-collection (model) node, the ancestor's *entire* value in the working copy
is replaced wholesale with the value read from the live store's pre-repair
snapshot at the ancestor's path, and the ancestor, its child along the path,
and the violation path are marked processed.  The closed conjuncts instantiate
both halves of the claim: the root-level step of the wrong-primitive scenario
replaces `/name` with the pre-repair store value (end to end:
`{name: 42, age: 5}` hydrates to `{name: "A", age: 5}`), and the nested
scenario replaces the whole nested record (`lastName` comes from the live
document, not the candidate). -/
theorem c6_fallback_restoration (model : SchemaNode) (storeSnapshot : JsonValue)
    (tree : TreeNode) (st : RepairState) (entry : List String × PathObject)
    (np : NearestParent)
    (hguard : (st.processedPaths.any
      (fun processedPath => strStartsWith processedPath entry.2.path)) = false)
    (hnested : entry.2.isNested = true)
    (hnotopt : entry.2.type.isOptionalType = false)
    (hnp : tryResolveNearestExistingParent model storeSnapshot tree entry.1 = some np)
    (hmt : np.type.isMapType = false)
    (hat : np.type.isArrayType = false)
    (hnpopt : np.type.isOptionalType = false) :
    processViolation model storeSnapshot tree st entry
      = { newSnapshot := jsonAssign (pointerSegments np.nearestParentPath) st.newSnapshot
            ((jsonGet (pointerSegments np.nearestParentPath) storeSnapshot).getD .undef),
          processedPaths := addProcessed (addProcessed
            (addProcessed st.processedPaths np.nearestParentPath) np.childPath)
            entry.2.path }
      ∧ processViolation exFlatModel exFlatStore exFlatTree ⟨exFlatCand, []⟩
          (["name"], exPvName)
          = ⟨.obj [("name", .str "A"), ("age", .num 5)], ["/name"]⟩
      ∧ hydrateStore exFlatModel exFlatStore exFlatCand
          = .ok (.obj [("name", .str "A"), ("age", .num 5)])
      ∧ hydrateStore exNestedModel exNestedStore exNestedCand
          = .ok (.obj [("profile",
              .obj [("firstName", .str "John"), ("lastName", .str "Doe")])]) := by
  refine ⟨?_, rfl, rfl, rfl⟩
  unfold processViolation
  simp [hguard, hnested, hnotopt, hnp, hmt, hat, hnpopt]

/-- Witness for C6 at the nested-record scenario: the ancestor `/profile`
resolves against the live instance as a non-optional model type and is
restored wholesale from the pre-repair store snapshot. -/
theorem c6_witness :
    processViolation exNestedModel exNestedStore exNestedTree ⟨exNestedCand, []⟩
        (["profile", "firstName"], exPvProfileFirst)
      = ⟨.obj [("profile", .obj [("firstName", .str "John"), ("lastName", .str "Doe")])],
          ["/profile", "/profile/firstName"]⟩ :=
  (c6_fallback_restoration exNestedModel exNestedStore exNestedTree ⟨exNestedCand, []⟩
    (["profile", "firstName"], exPvProfileFirst)
    ⟨"/profile", "/profile/firstName",
      .record [("firstName", .prim .pstring), ("lastName", .prim .pstring)]⟩
    rfl rfl rfl rfl rfl rfl rfl).1

/-- C7: repairing an invalid child of a `List`/`Dictionary` ancestor deletes
the offending entry from the working copy (for arrays this leaves an
`undefined` hole), the traversal's final compaction strips every such hole
without inserting `null`, and the list scenario (three valid elements plus one
invalid) hydrates to exactly the three valid elements in their original
order. -/
theorem c7_collection_child_deleted (model : SchemaNode) (storeSnapshot : JsonValue)
    (tree : TreeNode) (st : RepairState) (entry : List String × PathObject)
    (np : NearestParent)
    (hguard : (st.processedPaths.any
      (fun processedPath => strStartsWith processedPath entry.2.path)) = false)
    (hnested : entry.2.isNested = true)
    (hnotopt : entry.2.type.isOptionalType = false)
    (hnp : tryResolveNearestExistingParent model storeSnapshot tree entry.1 = some np)
    (htype : (np.type.isMapType || np.type.isArrayType) = true) :
    processViolation model storeSnapshot tree st entry
      = { newSnapshot := jsonRemove (pointerSegments np.childPath) st.newSnapshot,
          processedPaths := addProcessed (addProcessed st.processedPaths np.childPath)
            entry.2.path }
      ∧ (∀ v, arraysCompact (removeEmptyItemsRecursively v) = true)
      ∧ hydrateStore exListModel exListStore exListCand
          = .ok (.obj [("features", .arr [.str "a", .str "b", .str "c"])]) := by
  refine ⟨?_, arraysCompact_rem, rfl⟩
  unfold processViolation
  simp [hguard, hnested, hnotopt, hnp, htype]

/-- Witness for C7 at the list scenario: deleting `/features/1` leaves an
`undefined` hole at index 1, later compacted away. -/
theorem c7_witness :
    processViolation exListModel exListStore exListTree ⟨exListCand, []⟩
        (["features", "1"], exPvFeat1)
      = ⟨.obj [("features", .arr [.str "a", .undef, .str "b", .str "c"])],
          ["/features/1"]⟩ :=
  (c7_collection_child_deleted exListModel exListStore exListTree ⟨exListCand, []⟩
    (["features", "1"], exPvFeat1)
    ⟨"/features", "/features/1", .list (.prim .pstring)⟩
    rfl rfl rfl rfl rfl).1

/-! Violation-trie lemmas (C4 support). -/

theorem valueAt_empty (segs : List String) : valueAt (.mk none []) segs = none := by
  cases segs <;> rfl

theorem find?_setChild_self (s : String) (c : TreeNode) :
    ∀ ns, (((setChild ns s c).find? (fun p => p.1 == s)).map Prod.snd) = some c
  | [] => by simp [setChild]
  | (k, c0) :: tail => by
      cases hk : (k == s) with
      | true => simp [setChild, hk, List.find?]
      | false => simp [setChild, hk, List.find?, find?_setChild_self s c tail]

theorem find?_setChild_ne (s s' : String) (c : TreeNode) (hne : (s' == s) = false) :
    ∀ ns, (setChild ns s c).find? (fun p => p.1 == s') = ns.find? (fun p => p.1 == s')
  | [] => by
      have h2 : (s == s') = false := by
        rw [beq_eq_false_iff_ne] at hne ⊢
        exact fun h => hne h.symm
      simp [setChild, List.find?, h2]
  | (k, c0) :: tail => by
      cases hk : (k == s) with
      | true =>
          have hks : k = s := beq_iff_eq.mp hk
          subst hks
          have h2 : (k == s') = false := by
            rw [beq_eq_false_iff_ne] at hne ⊢
            exact fun h => hne h.symm
          simp [setChild, List.find?, h2]
      | false =>
          simp only [setChild, hk, Bool.false_eq_true, if_false, List.find?]
          cases hks : (k == s') with
          | true => simp
          | false => simp [find?_setChild_ne s s' c hne tail]

theorem valueAt_cons (v : Option PathObject) (ns : List (String × TreeNode))
    (s : String) (rest : List String) :
    valueAt (.mk v ns) (s :: rest) = valueAt (childOrEmpty ns s) rest := by
  simp only [valueAt, nodeAt, childOrEmpty]
  cases hfind : (ns.find? fun q => q.1 == s).map Prod.snd with
  | some c => simp [hfind]
  | none =>
      simp [hfind]
      exact (valueAt_empty rest).symm

theorem childOrEmpty_setChild_self (ns : List (String × TreeNode)) (s : String) (c : TreeNode) :
    childOrEmpty (setChild ns s c) s = c := by
  simp [childOrEmpty, find?_setChild_self s c ns]

theorem childOrEmpty_setChild_ne (ns : List (String × TreeNode)) (s s' : String) (c : TreeNode)
    (hne : (s' == s) = false) :
    childOrEmpty (setChild ns s c) s' = childOrEmpty ns s' := by
  simp [childOrEmpty, find?_setChild_ne s s' c hne ns]

theorem valueAt_insertPath (p : PathObject) :
    ∀ (ins : List String) (t : TreeNode) (segs : List String),
      valueAt (insertPath ins t p) segs = if segs = ins then some p else valueAt t segs
  | [], .mk v ns, [] => by simp [insertPath, valueAt, nodeAt, TreeNode.value]
  | [], .mk v ns, s :: rest => by
      rw [show insertPath [] (.mk v ns) p = .mk (some p) ns from rfl, valueAt_cons,
        valueAt_cons]
      simp
  | i :: irest, .mk v ns, [] => by
      simp [insertPath, valueAt, nodeAt, TreeNode.value]
  | i :: irest, .mk v ns, s :: rest => by
      rw [show insertPath (i :: irest) (.mk v ns) p
          = .mk v (setChild ns i (insertPath irest (childOrEmpty ns i) p)) from rfl,
        valueAt_cons]
      by_cases hs : s = i
      · subst hs
        rw [childOrEmpty_setChild_self,
          valueAt_insertPath p irest (childOrEmpty ns s) rest, valueAt_cons]
        by_cases hr : rest = irest
        · simp [hr]
        · simp [hr, show ¬(s :: rest = s :: irest) from fun h => hr (by injection h)]
      · have hbne : (s == i) = false := by rw [beq_eq_false_iff_ne]; exact hs
        rw [childOrEmpty_setChild_ne ns i s _ hbne, ← valueAt_cons v]
        simp [show ¬(s :: rest = i :: irest) from fun h => hs (by injection h)]

theorem getLast?_cons_or {α : Type} (a : α) (l : List α) :
    (a :: l).getLast? = l.getLast?.or (some a) := by
  cases l with
  | nil => rfl
  | cons b bs =>
      rw [List.getLast?_cons_cons]
      cases hx : (b :: bs).getLast? with
      | none =>
          have hne : b :: bs ≠ [] := by simp
          rw [← List.getLast?_isSome] at hne
          rw [hx] at hne
          cases hne
      | some x => simp [Option.or]

theorem valueAt_buildTreeAux (segsOf : PathObject → List String) :
    ∀ (vs : List PathObject) (t : TreeNode) (segs : List String),
      valueAt (vs.foldl (fun tr pathObj => insertPath (segsOf pathObj) tr pathObj) t) segs
        = ((vs.filter (fun v => segsOf v == segs)).getLast?).or (valueAt t segs)
  | [], t, segs => by simp
  | v :: rest, t, segs => by
      rw [List.foldl_cons, valueAt_buildTreeAux segsOf rest _ segs, List.filter_cons]
      by_cases hc : segsOf v = segs
      · have hb : (segsOf v == segs) = true := beq_iff_eq.mpr hc
        rw [hb, if_pos rfl, getLast?_cons_or, Option.or_assoc]
        congr 1
        rw [valueAt_insertPath v (segsOf v) t segs, if_pos hc.symm]
        simp [Option.or]
      · have hb : (segsOf v == segs) = false := by rw [beq_eq_false_iff_ne]; exact hc
        rw [hb]
        simp only [Bool.false_eq_true, if_false]
        congr 1
        rw [valueAt_insertPath v (segsOf v) t segs,
          if_neg (fun h => hc h.symm)]

/-- C4 (corrected): for every input violation list, the trie built by
`buildTree` stores at each exact path the *last* violation reported for that
path — a later duplicate overwrites an earlier one
(`currentNode.value = pathObj`), the opposite of the claimed keep-first
policy. -/
theorem c4_amended_last_wins (paths : List PathObject) (segs : List String) :
    valueAt (buildTree paths) segs
      = (paths.filter (fun v => v.pathSegments.tail == segs)).getLast? := by
  rw [buildTree, valueAt_buildTreeAux (fun v => v.pathSegments.tail) paths _ segs,
    valueAt_empty, Option.or_none]

/-- Counterexample to C4 as stated: two violations are reported for the same
exact path `/a` with distinct rejecting types; the trie keeps the *second*
(later) violation, not the first. -/
theorem c4_counterexample :
    valueAt (buildTree [exDupFirst, exDupSecond]) ["a"] = some exDupSecond
      ∧ exDupFirst.type = .prim .pstring
      ∧ exDupSecond.type = .prim .pnumber
      ∧ SchemaNode.prim .pstring ≠ SchemaNode.prim .pnumber :=
  ⟨rfl, rfl, rfl, by simp⟩

/-! Traversal-order lemmas (C5 support). -/

theorem rdftChildren_mem_infix {k : String} {c : TreeNode} :
    ∀ (ns : List (String × TreeNode)), (k, c) ∈ ns → ∀ pos,
      ∃ l r, rdftChildren ns pos = l ++ rdftNodes c (pos ++ [k]) ++ r
  | [], hmem, _ => absurd hmem (List.not_mem_nil _)
  | (k0, c0) :: tail, hmem, pos => by
      rcases List.mem_cons.mp hmem with heq | htail
      · obtain ⟨rfl, rfl⟩ : k0 = k ∧ c0 = c := by
          injection heq with h1 h2
          exact ⟨h1.symm, h2.symm⟩
        exact ⟨rdftChildren tail pos, [], by simp [rdftChildren]⟩
      · obtain ⟨l, r, hr⟩ := rdftChildren_mem_infix tail htail pos
        exact ⟨l, r ++ rdftNodes c0 (pos ++ [k0]), by simp [rdftChildren, hr]⟩

theorem isSubtree_infix {s t : TreeNode} (h : IsSubtree s t) :
    ∀ pos, ∃ pos2 l r, rdftNodes t pos = l ++ rdftNodes s pos2 ++ r := by
  induction h with
  | exact => exact fun pos => ⟨pos, [], [], by simp⟩
  | @viaChild c k v ns hsub hmem ih =>
      intro pos
      obtain ⟨l1, r1, h1⟩ := rdftChildren_mem_infix ns hmem pos
      obtain ⟨pos2, l2, r2, h2⟩ := ih (pos ++ [k])
      refine ⟨pos2, l1 ++ l2, r2 ++ (r1 ++ (v.map (fun p => (pos, p))).toList), ?_⟩
      rw [show rdftNodes (TreeNode.mk v ns) pos
          = rdftChildren ns pos ++ (v.map (fun p => (pos, p))).toList from rfl, h1, h2]
      simp

/-- C5: the traversal is strictly deepest-first.  At every node of every trie,
the visit sequence is the visits of all child subtrees — taken in *reverse*
insertion order (`rdftChildren` recurses on the tail before the head, exactly
`Array.from(tree.nodes.keys()).reverse()`) — followed by the node's own
violation; and for every subtree of the traversed trie that whole block
appears contiguously inside the full traversal, so every violation stored
below a node is visited (hence attempted by the fold) before the node's own
violation. -/
theorem c5_reverse_depth_first {s t : TreeNode} (h : IsSubtree s t) :
    (∀ (v : Option PathObject) (ns : List (String × TreeNode)) (pos : List String),
      rdftNodes (.mk v ns) pos
        = rdftChildren ns pos ++ ((v.map (fun p => (pos, p))).toList))
      ∧ ∃ pos l r, reverseDepthFirstTraversal t
          = l ++ (rdftChildren s.nodes pos ++ ((s.value.map (fun p => (pos, p))).toList)) ++ r := by
  refine ⟨fun v ns pos => rfl, ?_⟩
  obtain ⟨pos2, l, r, hr⟩ := isSubtree_infix h []
  refine ⟨pos2, l, r, ?_⟩
  rw [reverseDepthFirstTraversal, hr]
  cases s with
  | mk v ns => rfl

/-- Witness for C5: a concrete two-level trie in which the inner node (itself
holding a violation and two children) occurs as a subtree of the outer trie. -/
theorem c5_witness :
    IsSubtree exTrieInner exTrieOuter
      ∧ ((∀ (v : Option PathObject) (ns : List (String × TreeNode)) (pos : List String),
          rdftNodes (.mk v ns) pos
            = rdftChildren ns pos ++ ((v.map (fun p => (pos, p))).toList))
        ∧ ∃ pos l r, reverseDepthFirstTraversal exTrieOuter
            = l ++ (rdftChildren exTrieInner.nodes pos
                ++ ((exTrieInner.value.map (fun p => (pos, p))).toList)) ++ r) := by
  have hsub : IsSubtree exTrieInner exTrieOuter := by
    show IsSubtree exTrieInner
      (.mk none [("a", exTrieInner), ("d", .mk (some exDupSecond) [])])
    exact .viaChild (.exact exTrieInner) (List.mem_cons_self _ _)
  exact ⟨hsub, c5_reverse_depth_first hsub⟩

/-! JSON round-trip, hole-compaction identity, and json-pointer assignment
lemmas (C8 support). -/


mutual
theorem jsonRoundTrip_id : ∀ v, noUndef v = true → jsonRoundTrip v = v
  | .str _, _ => rfl
  | .num _, _ => rfl
  | .bool _, _ => rfl
  | .null, _ => rfl
  | .undef, h => by simp [noUndef] at h
  | .arr items, h => by
      simp only [jsonRoundTrip]
      rw [roundItems_id items (by simpa [noUndef] using h)]
  | .obj kvs, h => by
      simp only [jsonRoundTrip]
      rw [roundFields_id kvs (by simpa [noUndef] using h)]

theorem roundItems_id : ∀ items, noUndefItems items = true → roundItems items = items
  | [], _ => rfl
  | item :: rest, h => by
      have h1 : noUndef item = true := by
        simp [noUndefItems, Bool.and_eq_true] at h
        exact h.1
      have h2 : noUndefItems rest = true := by
        simp [noUndefItems, Bool.and_eq_true] at h
        exact h.2
      have hnu : item.isUndef = false := by
        cases item <;> simp [JsonValue.isUndef] <;> simp [noUndef] at h1
      simp only [roundItems, hnu, Bool.false_eq_true, if_false]
      rw [jsonRoundTrip_id item h1, roundItems_id rest h2]

theorem roundFields_id : ∀ kvs, noUndefFields kvs = true → roundFields kvs = kvs
  | [], _ => rfl
  | (k, v) :: rest, h => by
      have h1 : noUndef v = true := by
        simp [noUndefFields, Bool.and_eq_true] at h
        exact h.1
      have h2 : noUndefFields rest = true := by
        simp [noUndefFields, Bool.and_eq_true] at h
        exact h.2
      have hnu : v.isUndef = false := by
        cases v <;> simp [JsonValue.isUndef] <;> simp [noUndef] at h1
      simp only [roundFields, hnu, Bool.false_eq_true, if_false]
      rw [jsonRoundTrip_id v h1, roundFields_id rest h2]
end

theorem filterUndef_id : ∀ items, noUndefItems items = true → filterUndef items = items
  | [], _ => rfl
  | item :: rest, h => by
      have h1 : noUndef item = true := by
        simp [noUndefItems, Bool.and_eq_true] at h
        exact h.1
      have h2 : noUndefItems rest = true := by
        simp [noUndefItems, Bool.and_eq_true] at h
        exact h.2
      have hnu : item.isUndef = false := by
        cases item <;> simp [JsonValue.isUndef] <;> simp [noUndef] at h1
      simp only [filterUndef, List.filter_cons, hnu]
      simp only [Bool.not_false, if_true]
      have := filterUndef_id rest h2
      simp only [filterUndef] at this
      rw [this]

mutual
theorem removeEmptyItems_id : ∀ v, noUndef v = true → removeEmptyItemsRecursively v = v
  | .str _, _ => rfl
  | .num _, _ => rfl
  | .bool _, _ => rfl
  | .null, _ => rfl
  | .undef, h => by simp [noUndef] at h
  | .arr items, h => by
      simp only [removeEmptyItemsRecursively]
      rw [remItems_id items (by simpa [noUndef] using h),
        filterUndef_id items (by simpa [noUndef] using h)]
  | .obj kvs, h => by
      simp only [removeEmptyItemsRecursively]
      rw [remFields_id kvs (by simpa [noUndef] using h)]

theorem remItems_id : ∀ items, noUndefItems items = true → remItems items = items
  | [], _ => rfl
  | item :: rest, h => by
      have h1 : noUndef item = true := by
        simp [noUndefItems, Bool.and_eq_true] at h
        exact h.1
      have h2 : noUndefItems rest = true := by
        simp [noUndefItems, Bool.and_eq_true] at h
        exact h.2
      simp only [remItems]
      rw [removeEmptyItems_id item h1, remItems_id rest h2]

theorem remFields_id : ∀ kvs, noUndefFields kvs = true → remFields kvs = kvs
  | [], _ => rfl
  | (k, v) :: rest, h => by
      have h1 : noUndef v = true := by
        simp [noUndefFields, Bool.and_eq_true] at h
        exact h.1
      have h2 : noUndefFields rest = true := by
        simp [noUndefFields, Bool.and_eq_true] at h
        exact h.2
      simp only [remFields]
      rw [removeEmptyItems_id v h1, remFields_id rest h2]
end

theorem rdftNodes_chain (p : PathObject) :
    ∀ (segs pos : List String),
      rdftNodes (insertPath segs (.mk none []) p) pos = [(pos ++ segs, p)]
  | [], pos => by simp [insertPath, rdftNodes, rdftChildren]
  | s :: rest, pos => by
      rw [show insertPath (s :: rest) (.mk none []) p
          = .mk none [(s, insertPath rest (.mk none []) p)] from rfl]
      rw [show rdftNodes (TreeNode.mk none [(s, insertPath rest (.mk none []) p)]) pos
          = rdftChildren [(s, insertPath rest (.mk none []) p)] pos ++ [] from rfl]
      rw [show rdftChildren [(s, insertPath rest (.mk none []) p)] pos
          = rdftChildren [] pos ++ rdftNodes (insertPath rest (.mk none []) p) (pos ++ [s])
          from rfl]
      rw [rdftNodes_chain p rest (pos ++ [s])]
      simp [show rdftChildren [] pos = [] from rfl]



theorem find?_setFieldJson_self (s : String) (v : JsonValue) :
    ∀ kvs, (((setFieldJson kvs s v).find? (fun kv => kv.1 == s)).map Prod.snd) = some v
  | [] => by simp [setFieldJson]
  | (k, v0) :: tail => by
      cases hk : (k == s) with
      | true => simp [setFieldJson, hk, List.find?]
      | false => simp [setFieldJson, hk, List.find?, find?_setFieldJson_self s v tail]

theorem find?_setFieldJson_ne (s s' : String) (v : JsonValue) (hne : (s' == s) = false) :
    ∀ kvs, (setFieldJson kvs s v).find? (fun kv => kv.1 == s')
      = kvs.find? (fun kv => kv.1 == s')
  | [] => by
      have h2 : (s == s') = false := by
        rw [beq_eq_false_iff_ne] at hne ⊢
        exact fun h => hne h.symm
      simp [setFieldJson, List.find?, h2]
  | (k, v0) :: tail => by
      cases hk : (k == s) with
      | true =>
          have hks : k = s := beq_iff_eq.mp hk
          subst hks
          have h2 : (k == s') = false := by
            rw [beq_eq_false_iff_ne] at hne ⊢
            exact fun h => hne h.symm
          simp [setFieldJson, List.find?, h2]
      | false =>
          simp only [setFieldJson, hk, Bool.false_eq_true, if_false, List.find?]
          cases hks : (k == s') with
          | true => simp
          | false => simp [find?_setFieldJson_ne s s' v hne tail]

theorem noUndefFields_find? {p : String × JsonValue → Bool} :
    ∀ {kvs : List (String × JsonValue)} {kc : String × JsonValue},
      kvs.find? p = some kc → noUndefFields kvs = true → noUndef kc.2 = true
  | [], _, hf, _ => by simp at hf
  | (k, v) :: tail, kc, hf, hn => by
      have hn1 : noUndef v = true ∧ noUndefFields tail = true := by
        simpa [noUndefFields, Bool.and_eq_true] using hn
      rw [List.find?_cons] at hf
      split at hf
      · injection hf with he
        rw [← he]
        exact hn1.1
      · exact noUndefFields_find? hf hn1.2

theorem noUndefItems_get? :
    ∀ {items : List JsonValue} {i : Nat} {c : JsonValue},
      items.get? i = some c → noUndefItems items = true → noUndef c = true
  | [], i, _, hf, _ => by simp at hf
  | item :: rest, 0, c, hf, hn => by
      injection hf with he
      rw [← he]
      exact (by simpa [noUndefItems, Bool.and_eq_true] using hn : _ ∧ _).1
  | item :: rest, i + 1, c, hf, hn => by
      have hn2 : noUndefItems rest = true :=
        ((by simpa [noUndefItems, Bool.and_eq_true] using hn : _ ∧ _)).2
      exact noUndefItems_get? (by simpa using hf) hn2

theorem noUndefFields_setFieldJson (s : String) (v : JsonValue) (hv : noUndef v = true) :
    ∀ kvs, noUndefFields kvs = true → noUndefFields (setFieldJson kvs s v) = true
  | [], _ => by simp [setFieldJson, noUndefFields, hv]
  | (k, v0) :: tail, hn => by
      have hn1 : noUndef v0 = true ∧ noUndefFields tail = true := by
        simpa [noUndefFields, Bool.and_eq_true] using hn
      cases hk : (k == s) with
      | true => simp [setFieldJson, hk, noUndefFields, hv, hn1.2]
      | false =>
          simp [setFieldJson, hk, noUndefFields, hn1.1,
            noUndefFields_setFieldJson s v hv tail hn1.2]

theorem noUndefItems_set (v : JsonValue) (hv : noUndef v = true) :
    ∀ (items : List JsonValue) (i : Nat), noUndefItems items = true →
      noUndefItems (items.set i v) = true
  | [], _, _ => by simp [noUndefItems]
  | item :: rest, 0, hn => by
      have hn1 : noUndef item = true ∧ noUndefItems rest = true := by
        simpa [noUndefItems, Bool.and_eq_true] using hn
      simp [List.set, noUndefItems, hv, hn1.2]
  | item :: rest, i + 1, hn => by
      have hn1 : noUndef item = true ∧ noUndefItems rest = true := by
        simpa [noUndefItems, Bool.and_eq_true] using hn
      simp [List.set, noUndefItems, hn1.1, noUndefItems_set v hv rest i hn1.2]



theorem noUndef_assign :
    ∀ (segs : List String) (doc value : JsonValue),
      noUndef doc = true → noUndef value = true →
        noUndef (jsonAssign segs doc value) = true
  | [], doc, v, hd, _ => hd
  | [s], .obj kvs, v, hd, hv =>
      noUndefFields_setFieldJson s v hv kvs (by simpa [noUndef] using hd)
  | [s], .arr items, v, hd, hv => by
      cases hp : parseIndex s with
      | some i =>
          simp only [jsonAssign, hp]
          exact noUndefItems_set v hv items i (by simpa [noUndef] using hd)
      | none => simp only [jsonAssign, hp]; exact hd
  | [s], .str a, v, hd, _ => hd
  | [s], .num a, v, hd, _ => hd
  | [s], .bool a, v, hd, _ => hd
  | [s], .null, v, hd, _ => hd
  | [s], .undef, v, hd, _ => hd
  | s :: s2 :: rest, .obj kvs, v, hd, hv => by
      cases hf : (kvs.find? (fun kv => kv.1 == s)).map Prod.snd with
      | some c =>
          simp only [jsonAssign, hf]
          have hc : noUndef c = true := by
            obtain ⟨⟨k0, c0⟩, hk0, hc0⟩ := Option.map_eq_some'.mp hf
            have := noUndefFields_find? hk0 (by simpa [noUndef] using hd)
            rw [hc0] at this
            exact this
          exact noUndefFields_setFieldJson s _ (noUndef_assign (s2 :: rest) c v hc hv) kvs
            (by simpa [noUndef] using hd)
      | none => simp only [jsonAssign, hf]; exact hd
  | s :: s2 :: rest, .arr items, v, hd, hv => by
      cases hp : parseIndex s with
      | some i =>
          cases hg : items.get? i with
          | some c =>
              simp only [jsonAssign, hp, hg]
              exact noUndefItems_set _ (noUndef_assign (s2 :: rest) c v
                (noUndefItems_get? hg (by simpa [noUndef] using hd)) hv) items i
                (by simpa [noUndef] using hd)
          | none => simp only [jsonAssign, hp, hg]; exact hd
      | none => simp only [jsonAssign, hp]; exact hd
  | s :: s2 :: rest, .str a, v, hd, _ => hd
  | s :: s2 :: rest, .num a, v, hd, _ => hd
  | s :: s2 :: rest, .bool a, v, hd, _ => hd
  | s :: s2 :: rest, .null, v, hd, _ => hd
  | s :: s2 :: rest, .undef, v, hd, _ => hd



theorem jsonGet_assign_self :
    ∀ (s : String) (rest : List String) (doc value : JsonValue),
      (jsonGet (s :: rest) doc).isSome = true →
        jsonGet (s :: rest) (jsonAssign (s :: rest) doc value) = some value
  | s, [], .obj kvs, v, hg => by
      simp only [jsonAssign, jsonGet, find?_setFieldJson_self s v kvs]
  | s, [], .arr items, v, hg => by
      cases hp : parseIndex s with
      | some i =>
          simp only [jsonGet, hp] at hg
          cases hgi : items.get? i with
          | some c =>
              simp only [jsonAssign, jsonGet, hp, List.get?_set_eq, hgi]
              rfl
          | none => rw [hgi] at hg; simp at hg
      | none => simp only [jsonGet, hp] at hg; simp at hg
  | s, [], .str a, v, hg => by simp [jsonGet] at hg
  | s, [], .num a, v, hg => by simp [jsonGet] at hg
  | s, [], .bool a, v, hg => by simp [jsonGet] at hg
  | s, [], .null, v, hg => by simp [jsonGet] at hg
  | s, [], .undef, v, hg => by simp [jsonGet] at hg
  | s, s2 :: rest2, .obj kvs, v, hg => by
      simp only [jsonGet] at hg
      cases hf : (kvs.find? (fun kv => kv.1 == s)).map Prod.snd with
      | some c =>
          rw [hf] at hg
          simp only [jsonAssign, hf, jsonGet, find?_setFieldJson_self s _ kvs]
          exact jsonGet_assign_self s2 rest2 c v hg
      | none => rw [hf] at hg; simp at hg
  | s, s2 :: rest2, .arr items, v, hg => by
      cases hp : parseIndex s with
      | some i =>
          simp only [jsonGet, hp] at hg
          cases hgi : items.get? i with
          | some c =>
              rw [hgi] at hg
              simp only [jsonAssign, hp, hgi, jsonGet, List.get?_set_eq,
                Option.map_eq_map, Option.map_some']
              exact jsonGet_assign_self s2 rest2 c v hg
          | none => rw [hgi] at hg; simp at hg
      | none => simp only [jsonGet, hp] at hg; simp at hg
  | s, s2 :: rest2, .str a, v, hg => by simp [jsonGet] at hg
  | s, s2 :: rest2, .num a, v, hg => by simp [jsonGet] at hg
  | s, s2 :: rest2, .bool a, v, hg => by simp [jsonGet] at hg
  | s, s2 :: rest2, .null, v, hg => by simp [jsonGet] at hg
  | s, s2 :: rest2, .undef, v, hg => by simp [jsonGet] at hg



theorem parseIndex_eq_some {s : String} {i : Nat} (hs : parseIndex s = some i) :
    toString i = s := by
  unfold parseIndex at hs
  cases h1 : parseIndexRaw s with
  | none =>
      simp only [h1] at hs
      exact Option.noConfusion hs
  | some n =>
      simp only [h1] at hs
      split at hs
      · next hc =>
          injection hs with hn
          rw [← hn]
          exact hc
      · cases hs

theorem parseIndex_inj {s t : String} {i : Nat}
    (hs : parseIndex s = some i) (ht : parseIndex t = some i) : s = t := by
  rw [← parseIndex_eq_some hs, parseIndex_eq_some ht]

theorem jsonGet_assign_frame :
    ∀ (segs q : List String) (doc value : JsonValue),
      ¬ (segs <+: q) → ¬ (q <+: segs) →
        jsonGet q (jsonAssign segs doc value) = jsonGet q doc
  | [], q, _, _, h1, _ => absurd List.nil_prefix h1
  | s :: rest, [], _, _, _, h2 => absurd List.nil_prefix h2
  | s :: rest, t :: qrest, doc, v, h1, h2 => by
      by_cases hst : s = t
      · subst hst
        have h1' : ¬ (rest <+: qrest) := fun hp => h1 (List.cons_prefix_cons.mpr ⟨rfl, hp⟩)
        have h2' : ¬ (qrest <+: rest) := fun hp => h2 (List.cons_prefix_cons.mpr ⟨rfl, hp⟩)
        cases rest with
        | nil => exact absurd List.nil_prefix h1'
        | cons r2 rrest =>
            cases doc with
            | obj kvs =>
                cases hf : (kvs.find? (fun kv => kv.1 == s)).map Prod.snd with
                | some c =>
                    simp only [jsonAssign, hf, jsonGet,
                      find?_setFieldJson_self s (jsonAssign (r2 :: rrest) c v) kvs]
                    rw [jsonGet_assign_frame (r2 :: rrest) qrest c v h1' h2']
                | none => simp only [jsonAssign, hf]
            | arr items =>
                cases hp : parseIndex s with
                | some i =>
                    cases hgi : items.get? i with
                    | some c =>
                        simp only [jsonAssign, hp, hgi, jsonGet, List.get?_set_eq,
                          Option.map_eq_map, Option.map_some']
                        rw [jsonGet_assign_frame (r2 :: rrest) qrest c v h1' h2']
                    | none => simp only [jsonAssign, hp, hgi]
                | none => simp only [jsonAssign, hp]
            | str a => rfl
            | num a => rfl
            | bool a => rfl
            | null => rfl
            | undef => rfl
      · have hbne : (t == s) = false := by
          rw [beq_eq_false_iff_ne]; exact fun h => hst h.symm
        cases rest with
        | nil =>
            cases doc with
            | obj kvs =>
                simp only [jsonAssign, jsonGet, find?_setFieldJson_ne s t v hbne kvs]
            | arr items =>
                cases hp : parseIndex s with
                | some i =>
                    simp only [jsonAssign, hp, jsonGet]
                    cases hq : parseIndex t with
                    | some j =>
                        have hij : i ≠ j := fun he => hst (parseIndex_inj hp (he ▸ hq))
                        simp only [hq, List.get?_set_ne v items hij]
                    | none => simp only [hq]
                | none => simp only [jsonAssign, hp]
            | str a => rfl
            | num a => rfl
            | bool a => rfl
            | null => rfl
            | undef => rfl
        | cons r2 rrest =>
            cases doc with
            | obj kvs =>
                cases hf : (kvs.find? (fun kv => kv.1 == s)).map Prod.snd with
                | some c =>
                    simp only [jsonAssign, hf, jsonGet,
                      find?_setFieldJson_ne s t (jsonAssign (r2 :: rrest) c v) hbne kvs]
                | none => simp only [jsonAssign, hf]
            | arr items =>
                cases hp : parseIndex s with
                | some i =>
                    cases hgi : items.get? i with
                    | some c =>
                        simp only [jsonAssign, hp, hgi, jsonGet]
                        cases hq : parseIndex t with
                        | some j =>
                            have hij : i ≠ j := fun he => hst (parseIndex_inj hp (he ▸ hq))
                            simp only [hq, List.get?_set_ne _ items hij]
                        | none => simp only [hq]
                    | none => simp only [jsonAssign, hp, hgi]
                | none => simp only [jsonAssign, hp]
            | str a => rfl
            | num a => rfl
            | bool a => rfl
            | null => rfl
            | undef => rfl



theorem matGo_step (d : Nat) :
    (∀ s v, schemaSize s + valueSize v ≤ d → matGo (d + 1) s v = matGo d s v) ∧
    (∀ el items, schemaSize el + valueItemsSize items ≤ d →
      matItemsGo (d + 1) el items = matItemsGo d el items) ∧
    (∀ vt kvs, schemaSize vt + valueFieldsSize kvs ≤ d →
      matEntriesGo (d + 1) vt kvs = matEntriesGo d vt kvs) ∧
    (∀ fields kvs, schemaFieldsSize fields + valueFieldsSize kvs ≤ d →
      matFieldsGo (d + 1) fields kvs = matFieldsGo d fields kvs) := by
  induction d using Nat.strong_induction_on with
  | _ d ih =>
    refine ⟨?_, ?_, ?_, ?_⟩
    · intro s v hle
      obtain ⟨e, rfl⟩ : ∃ e, d = e + 1 :=
        ⟨d - 1, by have := schemaSize_pos s; have := valueSize_pos v; omega⟩
      cases s with
      | prim k => rfl
      | optional inner dflt =>
          have hsz : schemaSize (SchemaNode.optional inner dflt) = schemaSize inner + 1 := rfl
          have hb : schemaSize inner + valueSize v ≤ e := by rw [hsz] at hle; omega
          have u1 : matGo (e + 1 + 1) (SchemaNode.optional inner dflt) v
              = if v.isUndef then dflt else matGo (e + 1) inner v := rfl
          have u2 : matGo (e + 1) (SchemaNode.optional inner dflt) v
              = if v.isUndef then dflt else matGo e inner v := rfl
          rw [u1, u2, (ih e (by omega)).1 inner v hb]
      | nullable inner =>
          have hsz : schemaSize (SchemaNode.nullable inner) = schemaSize inner + 1 := rfl
          have hb : schemaSize inner + valueSize v ≤ e := by rw [hsz] at hle; omega
          have u1 : matGo (e + 1 + 1) (SchemaNode.nullable inner) v
              = if v.isNull then v else matGo (e + 1) inner v := rfl
          have u2 : matGo (e + 1) (SchemaNode.nullable inner) v
              = if v.isNull then v else matGo e inner v := rfl
          rw [u1, u2, (ih e (by omega)).1 inner v hb]
      | list el =>
          cases v with
          | arr items =>
              have hsz : schemaSize (SchemaNode.list el) + valueSize (JsonValue.arr items)
                  = schemaSize el + valueItemsSize items + 2 := by
                have ha : schemaSize (SchemaNode.list el) = schemaSize el + 1 := rfl
                have hb2 : valueSize (JsonValue.arr items) = valueItemsSize items + 1 := rfl
                omega
              have hb : schemaSize el + valueItemsSize items ≤ e := by rw [hsz] at hle; omega
              have u1 : matGo (e + 1 + 1) (SchemaNode.list el) (JsonValue.arr items)
                  = .arr (matItemsGo (e + 1) el items) := rfl
              have u2 : matGo (e + 1) (SchemaNode.list el) (JsonValue.arr items)
                  = .arr (matItemsGo e el items) := rfl
              rw [u1, u2, (ih e (by omega)).2.1 el items hb]
          | str a => rfl
          | num a => rfl
          | bool a => rfl
          | null => rfl
          | undef => rfl
          | obj kvs => rfl
      | dict vt =>
          cases v with
          | obj kvs =>
              have hsz : schemaSize (SchemaNode.dict vt) + valueSize (JsonValue.obj kvs)
                  = schemaSize vt + valueFieldsSize kvs + 2 := by
                have ha : schemaSize (SchemaNode.dict vt) = schemaSize vt + 1 := rfl
                have hb2 : valueSize (JsonValue.obj kvs) = valueFieldsSize kvs + 1 := rfl
                omega
              have hb : schemaSize vt + valueFieldsSize kvs ≤ e := by rw [hsz] at hle; omega
              have u1 : matGo (e + 1 + 1) (SchemaNode.dict vt) (JsonValue.obj kvs)
                  = .obj (matEntriesGo (e + 1) vt kvs) := rfl
              have u2 : matGo (e + 1) (SchemaNode.dict vt) (JsonValue.obj kvs)
                  = .obj (matEntriesGo e vt kvs) := rfl
              rw [u1, u2, (ih e (by omega)).2.2.1 vt kvs hb]
          | str a => rfl
          | num a => rfl
          | bool a => rfl
          | null => rfl
          | undef => rfl
          | arr items => rfl
      | record fields =>
          cases v with
          | obj kvs =>
              have hsz : schemaSize (SchemaNode.record fields) + valueSize (JsonValue.obj kvs)
                  = schemaFieldsSize fields + valueFieldsSize kvs + 2 := by
                have ha : schemaSize (SchemaNode.record fields) = schemaFieldsSize fields + 1 := rfl
                have hb2 : valueSize (JsonValue.obj kvs) = valueFieldsSize kvs + 1 := rfl
                omega
              have hb : schemaFieldsSize fields + valueFieldsSize kvs ≤ e := by
                rw [hsz] at hle; omega
              have u1 : matGo (e + 1 + 1) (SchemaNode.record fields) (JsonValue.obj kvs)
                  = .obj (matFieldsGo (e + 1) fields kvs) := rfl
              have u2 : matGo (e + 1) (SchemaNode.record fields) (JsonValue.obj kvs)
                  = .obj (matFieldsGo e fields kvs) := rfl
              rw [u1, u2, (ih e (by omega)).2.2.2 fields kvs hb]
          | str a => rfl
          | num a => rfl
          | bool a => rfl
          | null => rfl
          | undef => rfl
          | arr items => rfl
    · intro el items hle
      obtain ⟨e, rfl⟩ : ∃ e, d = e + 1 :=
        ⟨d - 1, by have := schemaSize_pos el; have := valueItemsSize_pos items; omega⟩
      cases items with
      | nil => rfl
      | cons item rest =>
          have hsz : valueItemsSize (item :: rest) = valueSize item + valueItemsSize rest + 1 := rfl
          have h1 : schemaSize el + valueSize item ≤ e := by rw [hsz] at hle; omega
          have h2 : schemaSize el + valueItemsSize rest ≤ e := by
            have := valueSize_pos item; rw [hsz] at hle; omega
          have u1 : matItemsGo (e + 1 + 1) el (item :: rest)
              = matGo (e + 1) el item :: matItemsGo (e + 1) el rest := rfl
          have u2 : matItemsGo (e + 1) el (item :: rest)
              = matGo e el item :: matItemsGo e el rest := rfl
          rw [u1, u2, (ih e (by omega)).1 el item h1, (ih e (by omega)).2.1 el rest h2]
    · intro vt kvs hle
      obtain ⟨e, rfl⟩ : ∃ e, d = e + 1 :=
        ⟨d - 1, by have := schemaSize_pos vt; have := valueFieldsSize_pos kvs; omega⟩
      cases kvs with
      | nil => rfl
      | cons kv rest =>
          obtain ⟨k, v⟩ := kv
          have hsz : valueFieldsSize ((k, v) :: rest) = valueSize v + valueFieldsSize rest + 1 := rfl
          have h1 : schemaSize vt + valueSize v ≤ e := by rw [hsz] at hle; omega
          have h2 : schemaSize vt + valueFieldsSize rest ≤ e := by
            have := valueSize_pos v; rw [hsz] at hle; omega
          have u1 : matEntriesGo (e + 1 + 1) vt ((k, v) :: rest)
              = (k, matGo (e + 1) vt v) :: matEntriesGo (e + 1) vt rest := rfl
          have u2 : matEntriesGo (e + 1) vt ((k, v) :: rest)
              = (k, matGo e vt v) :: matEntriesGo e vt rest := rfl
          rw [u1, u2, (ih e (by omega)).1 vt v h1, (ih e (by omega)).2.2.1 vt rest h2]
    · intro fields kvs hle
      obtain ⟨e, rfl⟩ : ∃ e, d = e + 1 :=
        ⟨d - 1, by have := schemaFieldsSize_pos fields; have := valueFieldsSize_pos kvs; omega⟩
      cases fields with
      | nil => rfl
      | cons f rest =>
          obtain ⟨name, t⟩ := f
          have hsz : schemaFieldsSize ((name, t) :: rest)
              = schemaSize t + schemaFieldsSize rest + 1 := rfl
          have h1 : schemaSize t + valueSize (lookupField kvs name) ≤ e := by
            have := lookupField_size kvs name
            have := schemaFieldsSize_pos rest
            rw [hsz] at hle; omega
          have h2 : schemaFieldsSize rest + valueFieldsSize kvs ≤ e := by
            have := schemaSize_pos t; rw [hsz] at hle; omega
          have u1 : matFieldsGo (e + 1 + 1) ((name, t) :: rest) kvs
              = (name, matGo (e + 1) t (lookupField kvs name))
                :: matFieldsGo (e + 1) rest kvs := rfl
          have u2 : matFieldsGo (e + 1) ((name, t) :: rest) kvs
              = (name, matGo e t (lookupField kvs name)) :: matFieldsGo e rest kvs := rfl
          rw [u1, u2, (ih e (by omega)).1 t (lookupField kvs name) h1,
            (ih e (by omega)).2.2.2 rest kvs h2]

theorem matGo_add (k : Nat) :
    ∀ d s v, schemaSize s + valueSize v ≤ d → matGo (d + k) s v = matGo d s v := by
  induction k with
  | zero => intro d s v _; rfl
  | succ k ihk =>
      intro d s v h
      have h2 : schemaSize s + valueSize v ≤ d + k := by omega
      have he : d + (k + 1) = (d + k) + 1 := by omega
      rw [he, (matGo_step (d + k)).1 s v h2, ihk d s v h]

theorem matFieldsGo_add (k : Nat) :
    ∀ d fields kvs, schemaFieldsSize fields + valueFieldsSize kvs ≤ d →
      matFieldsGo (d + k) fields kvs = matFieldsGo d fields kvs := by
  induction k with
  | zero => intro d fields kvs _; rfl
  | succ k ihk =>
      intro d fields kvs h
      have h2 : schemaFieldsSize fields + valueFieldsSize kvs ≤ d + k := by omega
      have he : d + (k + 1) = (d + k) + 1 := by omega
      rw [he, (matGo_step (d + k)).2.2.2 fields kvs h2, ihk d fields kvs h]

theorem matGo_eq_mat (d : Nat) (s : SchemaNode) (v : JsonValue)
    (h : schemaSize s + valueSize v ≤ d) : matGo d s v = materializeDefaults s v := by
  have hd : d = (schemaSize s + valueSize v) + (d - (schemaSize s + valueSize v)) := by omega
  rw [materializeDefaults, hd, matGo_add _ _ s v (by omega)]

/-- Defining equation of the read-back at an `Optional` node holding
`undefined`: absence materialises into the node's stored synthesized
default. -/
theorem mat_optional_undef (inner : SchemaNode) (dflt : JsonValue) :
    materializeDefaults (.optional inner dflt) .undef = dflt := rfl

/-- Defining equation of the read-back at a `Record` node on an object: every
declared field is read back (a missing field reads as `undefined`), undeclared
candidate fields are dropped. -/
theorem mat_record_obj (fields : List (String × SchemaNode))
    (kvs : List (String × JsonValue)) :
    materializeDefaults (.record fields) (.obj kvs) = .obj (matFields fields kvs) := by
  have key : ∀ fields,
      matFieldsGo (schemaFieldsSize fields + valueFieldsSize kvs) fields kvs
        = matFields fields kvs := by
    intro fields
    induction fields with
    | nil =>
        have h0 : schemaFieldsSize ([] : List (String × SchemaNode)) + valueFieldsSize kvs
            = valueFieldsSize kvs + 1 := by
          have : schemaFieldsSize ([] : List (String × SchemaNode)) = 1 := rfl
          omega
        rw [h0]
        rfl
    | cons f rest ihr =>
        obtain ⟨name, t⟩ := f
        have hsz : schemaFieldsSize ((name, t) :: rest)
            = schemaSize t + schemaFieldsSize rest + 1 := rfl
        obtain ⟨e, he⟩ : ∃ e, schemaFieldsSize ((name, t) :: rest) + valueFieldsSize kvs
            = e + 1 :=
          ⟨schemaSize t + schemaFieldsSize rest + valueFieldsSize kvs, by omega⟩
        rw [he]
        have u1 : matFieldsGo (e + 1) ((name, t) :: rest) kvs
            = (name, matGo e t (lookupField kvs name)) :: matFieldsGo e rest kvs := rfl
        have hlk := lookupField_size kvs name
        have hrp := schemaFieldsSize_pos rest
        rw [u1, matGo_eq_mat e t (lookupField kvs name) (by omega)]
        have hrest : matFieldsGo e rest kvs
            = matFieldsGo (schemaFieldsSize rest + valueFieldsSize kvs) rest kvs := by
          have hst := schemaSize_pos t
          have hd : e = (schemaFieldsSize rest + valueFieldsSize kvs)
              + (e - (schemaFieldsSize rest + valueFieldsSize kvs)) := by omega
          rw [hd, matFieldsGo_add _ _ rest kvs (by omega)]
        rw [hrest, ihr]
        rfl
  have h1 : schemaSize (SchemaNode.record fields) + valueSize (JsonValue.obj kvs)
      = (schemaFieldsSize fields + valueFieldsSize kvs) + 2 := by
    have ha : schemaSize (SchemaNode.record fields) = schemaFieldsSize fields + 1 := rfl
    have hb : valueSize (JsonValue.obj kvs) = valueFieldsSize kvs + 1 := rfl
    omega
  have h2 : (schemaFieldsSize fields + valueFieldsSize kvs) + 2
      = ((schemaFieldsSize fields + valueFieldsSize kvs) + 1) + 1 := by omega
  rw [materializeDefaults, h1, h2]
  have u0 : matGo ((schemaFieldsSize fields + valueFieldsSize kvs) + 1 + 1)
      (SchemaNode.record fields) (JsonValue.obj kvs)
      = .obj (matFieldsGo ((schemaFieldsSize fields + valueFieldsSize kvs) + 1) fields kvs) := rfl
  rw [u0, matFieldsGo_add 1 _ fields kvs (by omega), key fields]

theorem lookupField_setFieldJson_self (kvs : List (String × JsonValue)) (s : String)
    (v : JsonValue) : lookupField (setFieldJson kvs s v) s = v := by
  have h0 : lookupField (setFieldJson kvs s v) s
      = (((setFieldJson kvs s v).find? (fun kv => kv.1 == s)).map Prod.snd).getD .undef := rfl
  rw [h0, find?_setFieldJson_self]
  rfl

theorem lookupField_setFieldJson_ne (s n : String) (v : JsonValue)
    (hne : (n == s) = false) (kvs : List (String × JsonValue)) :
    lookupField (setFieldJson kvs s v) n = lookupField kvs n := by
  have h0 : lookupField (setFieldJson kvs s v) n
      = (((setFieldJson kvs s v).find? (fun kv => kv.1 == n)).map Prod.snd).getD .undef := rfl
  have h1 : lookupField kvs n
      = ((kvs.find? (fun kv => kv.1 == n)).map Prod.snd).getD .undef := rfl
  rw [h0, h1, find?_setFieldJson_ne s n v hne kvs]

theorem lookupField_matFields (s : String) (t : SchemaNode) :
    ∀ (fields : List (String × SchemaNode)) (kvs : List (String × JsonValue)),
      (fields.find? (fun f => f.1 == s)).map Prod.snd = some t →
      lookupField (matFields fields kvs) s = materializeDefaults t (lookupField kvs s)
  | [], kvs, hf => by simp [List.find?] at hf
  | (n, tn) :: restF, kvs, hf => by
      cases hbe : (n == s) with
      | true =>
          have hts : tn = t := by
            simp only [List.find?, hbe, Option.map_some'] at hf
            exact Option.some.inj hf
          have hns : n = s := beq_iff_eq.mp hbe
          show lookupField ((n, materializeDefaults tn (lookupField kvs n))
              :: matFields restF kvs) s = _
          have hh : lookupField ((n, materializeDefaults tn (lookupField kvs n))
              :: matFields restF kvs) s = materializeDefaults tn (lookupField kvs n) := by
            simp [lookupField, List.find?, hbe]
          rw [hh, hts, hns]
      | false =>
          show lookupField ((n, materializeDefaults tn (lookupField kvs n))
              :: matFields restF kvs) s = _
          have hskip : lookupField ((n, materializeDefaults tn (lookupField kvs n))
              :: matFields restF kvs) s = lookupField (matFields restF kvs) s := by
            simp [lookupField, List.find?, hbe]
          have hf2 : (restF.find? (fun f => f.1 == s)).map Prod.snd = some t := by
            simp only [List.find?, hbe] at hf
            exact hf
          rw [hskip]
          exact lookupField_matFields s t restF kvs hf2

theorem matFields_congr_except (s : String) :
    ∀ (fields : List (String × SchemaNode)) (kvs kvs2 : List (String × JsonValue)),
      (∀ n, (n == s) = false → lookupField kvs n = lookupField kvs2 n) →
      (∀ f ∈ fields, f.1 = s →
        materializeDefaults f.2 (lookupField kvs s)
          = materializeDefaults f.2 (lookupField kvs2 s)) →
      matFields fields kvs = matFields fields kvs2
  | [], _, _, _, _ => rfl
  | (n, tn) :: restF, kvs, kvs2, h1, h2 => by
      have htail : matFields restF kvs = matFields restF kvs2 :=
        matFields_congr_except s restF kvs kvs2 h1
          (fun f hf hfs => h2 f (List.mem_cons_of_mem _ hf) hfs)
      show (n, materializeDefaults tn (lookupField kvs n)) :: matFields restF kvs
          = (n, materializeDefaults tn (lookupField kvs2 n)) :: matFields restF kvs2
      rw [htail]
      cases hbe : (n == s) with
      | true =>
          have hns : n = s := beq_iff_eq.mp hbe
          have hh2 : materializeDefaults tn (lookupField kvs n)
              = materializeDefaults tn (lookupField kvs2 n) := by
            rw [hns]
            exact h2 (n, tn) (List.mem_cons_self _ _) hns
          rw [hh2]
      | false =>
          rw [h1 n hbe]

theorem find?_fields_unique (s : String) (t : SchemaNode) :
    ∀ (fields : List (String × SchemaNode)),
      fieldsOnce fields s = true →
      (fields.find? (fun f => f.1 == s)).map Prod.snd = some t →
      ∀ f ∈ fields, f.1 = s → f.2 = t
  | [], _, _, f, hf, _ => absurd hf (List.not_mem_nil f)
  | (n, tn) :: restF, ho, hf, f, hmem, hfs => by
      cases hbe : (n == s) with
      | true =>
          have hall : restF.all (fun g => !(g.1 == s)) = true := by
            simp only [fieldsOnce, hbe, if_true] at ho
            exact ho
          have htn : tn = t := by
            simp only [List.find?, hbe, Option.map_some'] at hf
            exact Option.some.inj hf
          rcases List.mem_cons.mp hmem with heq | hmem2
          · rw [heq]
            exact htn
          · exfalso
            have hnot := List.all_eq_true.mp hall f hmem2
            rw [hfs] at hnot
            simp at hnot
      | false =>
          rcases List.mem_cons.mp hmem with heq | hmem2
          · exfalso
            have hnt : (n == s) = true := beq_iff_eq.mpr (by rw [heq] at hfs; exact hfs)
            rw [hbe] at hnt
            exact Bool.noConfusion hnt
          · have ho2 : fieldsOnce restF s = true := by
              simp only [fieldsOnce, hbe] at ho
              exact ho
            have hf2 : (restF.find? (fun f => f.1 == s)).map Prod.snd = some t := by
              simp only [List.find?, hbe] at hf
              exact hf
            exact find?_fields_unique s t restF ho2 hf2 f hmem2 hfs

theorem validateFields_all_nil :
    ∀ (fields : List (String × SchemaNode)) (kvs : List (String × JsonValue))
      (ctx : List ContextEntry),
      validateFields fields kvs ctx = [] →
      ∀ f ∈ fields, validate f.2 (lookupField kvs f.1) (ctx ++ [⟨f.1, f.2⟩]) = []
  | [], _, _, _, f, hf => absurd hf (List.not_mem_nil f)
  | (name, t) :: restF, kvs, ctx, h, f, hf => by
      have hu : validate t (lookupField kvs name) (ctx ++ [⟨name, t⟩])
          ++ validateFields restF kvs ctx = [] := h
      rw [List.append_eq_nil] at hu
      rcases List.mem_cons.mp hf with heq | hmem
      · rw [heq]
        exact hu.1
      · exact validateFields_all_nil restF kvs ctx hu.2 f hmem

/-- A candidate that is valid except for one absent (or `undefined`) uniquely
declared `Optional` record-field path reads back, after the (successful) apply,
as exactly the candidate with that one field set to the node's default: the
hypothesis that the repaired form `jsonAssign segs snapshot dflt` is a
fixed point of the read-back says the candidate is fully materialised
everywhere else. -/
theorem mat_fill_missing :
    ∀ (segs : List String) (model : SchemaNode) (snapshot : JsonValue)
      (ctx : List ContextEntry) (inner : SchemaNode) (dflt : JsonValue),
      schemaAtPath segs model = some (.optional inner dflt) →
      validate model snapshot ctx = [] →
      (jsonGet segs snapshot = none ∨ jsonGet segs snapshot = some .undef) →
      materializeDefaults (.optional inner dflt) dflt = dflt →
      materializeDefaults model (jsonAssign segs snapshot dflt) = jsonAssign segs snapshot dflt →
      segs ≠ [] →
      materializeDefaults model snapshot = jsonAssign segs snapshot dflt
        ∧ jsonGet segs (jsonAssign segs snapshot dflt) = some dflt
  | [], _, _, _, _, _, _, _, _, _, _, hne => absurd rfl hne
  | s :: rest, model, snapshot, ctx, inner, dflt, hschema, hval, hmiss, hmatd, hfix, _ => by
      cases model with
      | prim k => simp [schemaAtPath] at hschema
      | optional i2 d2 => simp [schemaAtPath] at hschema
      | nullable i2 => simp [schemaAtPath] at hschema
      | list e2 => simp [schemaAtPath] at hschema
      | dict v2 => simp [schemaAtPath] at hschema
      | record fields =>
        simp only [schemaAtPath] at hschema
        cases ho : fieldsOnce fields s with
        | false => rw [ho] at hschema; simp at hschema
        | true =>
          rw [if_pos ho] at hschema
          cases hfind : (fields.find? (fun f => f.1 == s)).map Prod.snd with
          | none => rw [hfind] at hschema; exact absurd hschema (by simp)
          | some t =>
            rw [hfind] at hschema
            cases snapshot with
            | str a =>
                rw [validate_record_shape fields (.str a) ctx
                  (fun kvs h => JsonValue.noConfusion h)] at hval
                exact absurd hval (by simp)
            | num a =>
                rw [validate_record_shape fields (.num a) ctx
                  (fun kvs h => JsonValue.noConfusion h)] at hval
                exact absurd hval (by simp)
            | bool a =>
                rw [validate_record_shape fields (.bool a) ctx
                  (fun kvs h => JsonValue.noConfusion h)] at hval
                exact absurd hval (by simp)
            | null =>
                rw [validate_record_shape fields .null ctx
                  (fun kvs h => JsonValue.noConfusion h)] at hval
                exact absurd hval (by simp)
            | undef =>
                rw [validate_record_shape fields .undef ctx
                  (fun kvs h => JsonValue.noConfusion h)] at hval
                exact absurd hval (by simp)
            | arr items =>
                rw [validate_record_shape fields (.arr items) ctx
                  (fun kvs h => JsonValue.noConfusion h)] at hval
                exact absurd hval (by simp)
            | obj kvs =>
              have hvalf : validateFields fields kvs ctx = [] := by
                rw [validate_record_obj] at hval
                exact hval
              obtain ⟨p, hp, hpt⟩ : ∃ p, fields.find? (fun f => f.1 == s) = some p ∧ p.2 = t := by
                cases hfo : fields.find? (fun f => f.1 == s) with
                | none => rw [hfo] at hfind; exact absurd hfind (by simp)
                | some p =>
                    rw [hfo] at hfind
                    refine ⟨p, rfl, ?_⟩
                    simp only [Option.map_some'] at hfind
                    exact Option.some.inj hfind
              have hps0 := List.find?_some hp
              have hps : p.1 = s := beq_iff_eq.mp hps0
              have hpmem : p ∈ fields := List.mem_of_find?_eq_some hp
              have hvalp : validate t (lookupField kvs s) (ctx ++ [⟨s, t⟩]) = [] := by
                have hh := validateFields_all_nil fields kvs ctx hvalf p hpmem
                rw [hps, hpt] at hh
                exact hh
              cases rest with
              | nil =>
                have ht : t = SchemaNode.optional inner dflt := by
                  have hh : some t = some (SchemaNode.optional inner dflt) := hschema
                  exact Option.some.inj hh
                subst ht
                have hlk : lookupField kvs s = JsonValue.undef := by
                  have h0 : lookupField kvs s
                      = ((kvs.find? (fun kv => kv.1 == s)).map Prod.snd).getD .undef := rfl
                  cases hfkv : (kvs.find? (fun kv => kv.1 == s)).map Prod.snd with
                  | none => rw [h0, hfkv]; rfl
                  | some c =>
                      have hgc : jsonGet [s] (JsonValue.obj kvs) = some c := by
                        simp only [jsonGet, hfkv]
                      have hc : c = JsonValue.undef := by
                        rcases hmiss with hm | hm
                        · rw [hgc] at hm
                          exact Option.noConfusion hm
                        · rw [hgc] at hm
                          exact Option.some.inj hm
                      rw [h0, hfkv, hc]
                      rfl
                have hassign : jsonAssign [s] (JsonValue.obj kvs) dflt
                    = .obj (setFieldJson kvs s dflt) := rfl
                have hg2 : jsonGet [s] (JsonValue.obj (setFieldJson kvs s dflt)) = some dflt := by
                  simp only [jsonGet, find?_setFieldJson_self]
                refine ⟨?_, by rw [hassign]; exact hg2⟩
                rw [hassign] at hfix ⊢
                rw [mat_record_obj] at hfix ⊢
                injection hfix with hfixf
                have hcongr : matFields fields kvs = matFields fields (setFieldJson kvs s dflt) := by
                  apply matFields_congr_except s
                  · intro n hn
                    exact (lookupField_setFieldJson_ne s n dflt hn kvs).symm
                  · intro f hfm hfs
                    have hft : f.2 = SchemaNode.optional inner dflt :=
                      find?_fields_unique s _ fields ho hfind f hfm hfs
                    rw [hft, hlk, lookupField_setFieldJson_self, mat_optional_undef, hmatd]
                rw [hcongr, hfixf]
              | cons r rs =>
                cases hfkv : (kvs.find? (fun kv => kv.1 == s)).map Prod.snd with
                | none =>
                    exfalso
                    have hlk : lookupField kvs s = JsonValue.undef := by
                      have h0 : lookupField kvs s
                          = ((kvs.find? (fun kv => kv.1 == s)).map Prod.snd).getD .undef := rfl
                      rw [h0, hfkv]
                      rfl
                    cases t with
                    | record fields2 =>
                        rw [hlk] at hvalp
                        rw [validate_record_shape fields2 .undef _
                          (fun kvs2 h => JsonValue.noConfusion h)] at hvalp
                        exact absurd hvalp (by simp)
                    | prim k2 => simp [schemaAtPath] at hschema
                    | optional i2 d2 => simp [schemaAtPath] at hschema
                    | nullable i2 => simp [schemaAtPath] at hschema
                    | list e2 => simp [schemaAtPath] at hschema
                    | dict v2 => simp [schemaAtPath] at hschema
                | some c =>
                    have hlk : lookupField kvs s = c := by
                      have h0 : lookupField kvs s
                          = ((kvs.find? (fun kv => kv.1 == s)).map Prod.snd).getD .undef := rfl
                      rw [h0, hfkv]
                      rfl
                    have hgdesc : jsonGet (s :: r :: rs) (JsonValue.obj kvs)
                        = jsonGet (r :: rs) c := by
                      simp only [jsonGet, hfkv]
                    have hmiss2 : jsonGet (r :: rs) c = none
                        ∨ jsonGet (r :: rs) c = some .undef := by
                      rcases hmiss with hm | hm
                      · exact Or.inl (by rw [← hgdesc]; exact hm)
                      · exact Or.inr (by rw [← hgdesc]; exact hm)
                    have hassign : jsonAssign (s :: r :: rs) (JsonValue.obj kvs) dflt
                        = .obj (setFieldJson kvs s (jsonAssign (r :: rs) c dflt)) := by
                      simp only [jsonAssign, hfkv]
                    have hvalc : validate t c (ctx ++ [⟨s, t⟩]) = [] := by
                      rw [hlk] at hvalp
                      exact hvalp
                    rw [hassign] at hfix
                    rw [mat_record_obj] at hfix
                    injection hfix with hfixf
                    have hsetself : lookupField
                        (setFieldJson kvs s (jsonAssign (r :: rs) c dflt)) s
                        = jsonAssign (r :: rs) c dflt :=
                      lookupField_setFieldJson_self kvs s (jsonAssign (r :: rs) c dflt)
                    have hlkmat := congrArg (fun l => lookupField l s) hfixf
                    simp only at hlkmat
                    rw [lookupField_matFields s t fields _ hfind, hsetself] at hlkmat
                    obtain ⟨ih1, ih2⟩ :=
                      mat_fill_missing (r :: rs) t c (ctx ++ [⟨s, t⟩]) inner dflt hschema
                        hvalc hmiss2 hmatd hlkmat (List.cons_ne_nil _ _)
                    constructor
                    · rw [hassign, mat_record_obj]
                      have hcongr : matFields fields kvs
                          = matFields fields (setFieldJson kvs s (jsonAssign (r :: rs) c dflt)) := by
                        apply matFields_congr_except s
                        · intro n hn
                          exact (lookupField_setFieldJson_ne s n
                            (jsonAssign (r :: rs) c dflt) hn kvs).symm
                        · intro f hfm hfs
                          have hft : f.2 = t :=
                            find?_fields_unique s t fields ho hfind f hfm hfs
                          rw [hft, hlk, hsetself, ih1, hlkmat]
                      rw [hcongr, hfixf]
                    · rw [hassign]
                      have hstep : jsonGet (s :: r :: rs)
                          (JsonValue.obj (setFieldJson kvs s (jsonAssign (r :: rs) c dflt)))
                          = jsonGet (r :: rs) (jsonAssign (r :: rs) c dflt) := by
                        simp only [jsonGet, find?_setFieldJson_self]
                      rw [hstep]
                      exact ih2

theorem processViolation_optional_fresh (model : SchemaNode) (storeSnapshot : JsonValue)
    (tree : TreeNode) (ns : JsonValue) (entry : List String × PathObject)
    (hopt : entry.2.type.isOptionalType = true) :
    processViolation model storeSnapshot tree ⟨ns, []⟩ entry
      = ⟨jsonAssign (pointerSegments entry.2.path) ns (createDefaultValue entry.2.type),
          [entry.2.path]⟩ := by
  unfold processViolation
  cases hn : entry.2.isNested with
  | true => simp [hn, hopt, addProcessed]
  | false => simp [hn, hopt, addProcessed]

theorem c8_corrupt_case (model : SchemaNode) (storeSnapshot snapshot dv : JsonValue)
    (err : ValidationError) (pv : PathObject)
    (hval : validate model snapshot [⟨"", model⟩] = [err])
    (hpv : transformErrorsToObjects [err] = [pv])
    (hopt : pv.type.isOptionalType = true)
    (hdv : createDefaultValue pv.type = dv)
    (hsegs : pointerSegments pv.path = pv.pathSegments.tail)
    (hns : noUndef snapshot = true)
    (hnd : noUndef dv = true)
    (hget : (jsonGet pv.pathSegments.tail snapshot).isSome = true)
    (hnonroot : pv.pathSegments.tail ≠ [])
    (hfinal : validate model (jsonAssign pv.pathSegments.tail snapshot dv) [⟨"", model⟩] = []) :
    hydrateStore model storeSnapshot snapshot
        = .ok (jsonAssign pv.pathSegments.tail snapshot dv)
      ∧ jsonGet pv.pathSegments.tail (jsonAssign pv.pathSegments.tail snapshot dv) = some dv
      ∧ (∀ q, ¬ (pv.pathSegments.tail <+: q) → ¬ (q <+: pv.pathSegments.tail) →
          jsonGet q (jsonAssign pv.pathSegments.tail snapshot dv) = jsonGet q snapshot) := by
  have htrav : reverseDepthFirstTraversal (buildTree [pv]) = [(pv.pathSegments.tail, pv)] := by
    show rdftNodes (insertPath pv.pathSegments.tail (.mk none []) pv) [] = _
    rw [rdftNodes_chain]
    simp
  have hrepair : repairSnapshot model storeSnapshot snapshot
      = jsonAssign pv.pathSegments.tail snapshot dv := by
    simp only [repairSnapshot, hval, hpv, htrav, List.foldl_cons, List.foldl_nil,
      jsonRoundTrip_id snapshot hns,
      processViolation_optional_fresh model storeSnapshot _ snapshot
        (pv.pathSegments.tail, pv) hopt]
    simp only [hdv, hsegs]
    exact removeEmptyItems_id _ (noUndef_assign pv.pathSegments.tail snapshot dv hns hnd)
  have h1 : applySnapshotModel model snapshot = .error mstTypeError := by
    unfold applySnapshotModel
    rw [hval]
    rfl
  refine ⟨?_, ?_, ?_⟩
  · unfold hydrateStore
    rw [h1]
    show applySnapshotModel model (repairSnapshot model storeSnapshot snapshot) = _
    rw [hrepair, applySnapshotModel_of_valid hfinal]
  · obtain ⟨s, rest, hsr⟩ : ∃ s rest, pv.pathSegments.tail = s :: rest := by
      cases hx : pv.pathSegments.tail with
      | nil => exact absurd hx hnonroot
      | cons a b => exact ⟨a, b, rfl⟩
    rw [hsr]
    exact jsonGet_assign_self s rest snapshot dv (by rw [← hsr]; exact hget)
  · intro q hq1 hq2
    exact jsonGet_assign_frame pv.pathSegments.tail q snapshot dv hq1 hq2


/-- C8: a candidate that corrupts, or is missing, exactly one optional leaf
field yields an output differing from the candidate only at that field, which
is replaced by the Optional node's synthesized default; every sibling and
ancestor value reads exactly as in the candidate.

First conjunct (corruption): when validation yields exactly one violation,
with an `Optional` rejecting node, hydrateStore (when the repaired document
applies) returns the candidate with only that one path replaced by the
synthesized default — the value at the path becomes the default, and every
other (non-comparable) path reads exactly as in the candidate.

Second conjunct (missing): a candidate lacking a uniquely declared Optional
leaf (and fully materialised elsewhere — the fixed-point hypothesis) is valid,
so the first atomic apply succeeds and hydrateStore returns it verbatim; the
document the caller then observes in the live store is its read-back
`materializeDefaults`, which is exactly the candidate with only that field set
to the synthesized default (the §8 missing-optional scenario `{}` →
`{title: ""}`), again with the value-at-path and frame properties. -/
theorem c8_optional_leaf_minimal :
    (∀ (model : SchemaNode) (storeSnapshot snapshot dv : JsonValue)
      (err : ValidationError) (pv : PathObject),
      validate model snapshot [⟨"", model⟩] = [err] →
      transformErrorsToObjects [err] = [pv] →
      pv.type.isOptionalType = true →
      createDefaultValue pv.type = dv →
      pointerSegments pv.path = pv.pathSegments.tail →
      noUndef snapshot = true →
      noUndef dv = true →
      (jsonGet pv.pathSegments.tail snapshot).isSome = true →
      pv.pathSegments.tail ≠ [] →
      validate model (jsonAssign pv.pathSegments.tail snapshot dv) [⟨"", model⟩] = [] →
      hydrateStore model storeSnapshot snapshot
          = .ok (jsonAssign pv.pathSegments.tail snapshot dv)
        ∧ jsonGet pv.pathSegments.tail (jsonAssign pv.pathSegments.tail snapshot dv) = some dv
        ∧ (∀ q, ¬ (pv.pathSegments.tail <+: q) → ¬ (q <+: pv.pathSegments.tail) →
            jsonGet q (jsonAssign pv.pathSegments.tail snapshot dv) = jsonGet q snapshot))
  ∧ (∀ (model : SchemaNode) (storeSnapshot snapshot : JsonValue) (segs : List String)
      (inner : SchemaNode) (dflt : JsonValue),
      segs ≠ [] →
      schemaAtPath segs model = some (.optional inner dflt) →
      validate model snapshot [⟨"", model⟩] = [] →
      (jsonGet segs snapshot = none ∨ jsonGet segs snapshot = some .undef) →
      materializeDefaults (.optional inner dflt) dflt = dflt →
      materializeDefaults model (jsonAssign segs snapshot dflt) = jsonAssign segs snapshot dflt →
      hydrateStore model storeSnapshot snapshot = .ok snapshot
        ∧ materializeDefaults model snapshot
            = jsonAssign segs snapshot (createDefaultValue (.optional inner dflt))
        ∧ jsonGet segs (materializeDefaults model snapshot)
            = some (createDefaultValue (.optional inner dflt))
        ∧ (∀ q, ¬ (segs <+: q) → ¬ (q <+: segs) →
            jsonGet q (materializeDefaults model snapshot) = jsonGet q snapshot)) := by
  constructor
  · intro model storeSnapshot snapshot dv err pv hval hpv hopt hdv hsegs hns hnd hget
      hnonroot hfinal
    exact c8_corrupt_case model storeSnapshot snapshot dv err pv hval hpv hopt hdv hsegs
      hns hnd hget hnonroot hfinal
  · intro model storeSnapshot snapshot segs inner dflt hne hschema hval hmiss hmatd hfix
    have hcd : createDefaultValue (SchemaNode.optional inner dflt) = dflt := rfl
    obtain ⟨hm, hg⟩ :=
      mat_fill_missing segs model snapshot [⟨"", model⟩] inner dflt hschema hval hmiss
        hmatd hfix hne
    refine ⟨?_, ?_, ?_, ?_⟩
    · unfold hydrateStore
      rw [applySnapshotModel_of_valid hval]
    · rw [hcd]
      exact hm
    · rw [hcd, hm]
      exact hg
    · intro q h1 h2
      rw [hm]
      exact jsonGet_assign_frame segs q snapshot dflt h1 h2

/-- Witness for C8 at the spec's two optional-leaf scenarios
(`{title: optional<string> default ""}`): with the corrupted candidate
`{title: 123}` the output replaces only `title` with the default `""`; with
the §8 missing-optional candidate `{}` the apply succeeds verbatim and the
store's read-back document is `{title: ""}`. -/
theorem c8_witness :
    (hydrateStore exOptModel exOptStore exOptCand = .ok (.obj [("title", .str "")]))
    ∧ (hydrateStore exOptModel exOptStore exMissCand = .ok exMissCand
        ∧ materializeDefaults exOptModel exMissCand = .obj [("title", .str "")]) := by
  constructor
  · exact (c8_optional_leaf_minimal.1 exOptModel exOptStore exOptCand (.str "")
      ⟨[⟨"", exOptModel⟩, ⟨"title", .optional (.prim .pstring) (.str "")⟩]⟩
      { path := "/title", pathSegments := ["", "title"],
        type := .optional (.prim .pstring) (.str ""), isNested := false }
      rfl rfl rfl rfl rfl rfl rfl rfl (by simp) rfl).1
  · have h := c8_optional_leaf_minimal.2 exOptModel exOptStore exMissCand ["title"]
      (.prim .pstring) (.str "") (List.cons_ne_nil _ _) rfl rfl (Or.inl rfl) rfl rfl
    exact ⟨h.1, h.2.1.trans rfl⟩


end MstPersistentStore

